import Mathlib

/-!
# Verification of the rhizopus backtesting kernel

Shallow embedding of the rhizopus simulation kernel
(`rhizopus/broker.py`, `rhizopus/orders.py`, `rhizopus/price_graph.py`,
`rhizopus/broker_simulator.py`) and proofs about it.

Modelling conventions:
* Python `float` values are modelled as `ℚ` (the claims under scrutiny are
  about the algebraic formulas; `1.0/0.0` raises `ZeroDivisionError` in
  Python, which we model explicitly).
* Python exceptions are modelled by `Except PyError`; exception messages are
  fixed strings (the Python code interpolates runtime values into messages,
  which is irrelevant to all claims).
* Python `dict`s are modelled as insertion-ordered association lists, since
  `dict` iteration order (insertion order) is observable through
  `find_path`.
* `datetime.datetime` is modelled as `ℤ` (seconds); `total_seconds` of a
  difference is the plain difference.  `broker_state.now` is `Optional` in
  Python but is always set before any order executes; we model it as `ℤ`.
* `math.nan` initial values of recorded prices and of the interest order's
  saved value are modelled as `none : Option ℚ` (`math.isfinite` is the
  `Option.isSome` test in this model).
-/

abbrev Time : Type := Int

/-- Python exceptions raised by the modelled code paths. -/
inductive PyError : Type where
  | brokerError (msg : String)
  | valueError (msg : String)
  | typeError (msg : String)
  | zeroDivisionError
  deriving DecidableEq

/-- `EPS_FINANCIAL = 1e-8` from `rhizopus/primitives.py`. -/
def EPS_FINANCIAL : ℚ := 1 / 100000000

/-- An `Amount` is a pair (value, numeraire) (`rhizopus/primitives.py`). -/
structure Amount where
  value : ℚ
  num : String
  deriving DecidableEq

/-- Association-list lookup: Python `d.get(k)` / `k in d`. -/
def lookupA {β : Type} : List (String × β) → String → Option β
  | [], _ => none
  | (k, v) :: rest, a => if k = a then some v else lookupA rest a

/-- Association-list lookup keyed by a pair of numeraires
(for the price dictionaries). -/
def lookupP {β : Type} : List ((String × String) × β) → String × String → Option β
  | [], _ => none
  | (k, v) :: rest, a => if k = a then some v else lookupP rest a

/-- Python `d[k] = v`: replace in place if the key exists, else append
(insertion order is preserved, as for a Python `dict`). -/
def setA {β : Type} : List (String × β) → String → β → List (String × β)
  | [], a, b => [(a, b)]
  | (k, v) :: rest, a, b => if k = a then (a, b) :: rest else (k, v) :: setA rest a b

/-- Python `del d[k]`. -/
def eraseA {β : Type} : List (String × β) → String → List (String × β)
  | [], _ => []
  | (k, v) :: rest, a => if k = a then rest else (k, v) :: eraseA rest a

/-- Order status (`rhizopus/broker.py`, `OrderStatus`). -/
inductive OrderStatus : Type where
  | active
  | executed
  | rejected
  deriving DecidableEq

/-- The order variants of `rhizopus/orders.py` that the claims concern,
as a closed tagged union.  The two `Option ℚ` fields of the transfer
variants are the recorded execution prices `rec_price_a` / `rec_price_b`
(initially `math.nan`, possibly assigned `None`; both modelled by `none`). -/
inductive OrderKind : Type where
  | createAccount (accountName : String) (amount : Amount)
  | deleteAccount (accountName : String)
  | transferAll (acc0 acc1 : String) (persistent : Bool)
  | forwardTransfer (acc0 acc1 : String) (amount : Amount) (recPriceA recPriceB : Option ℚ)
  | backwardTransfer (acc0 acc1 : String) (amount : Amount) (recPriceA recPriceB : Option ℚ)
  | addToVariable (variableName : String) (value : ℚ)
  | addToAccountBalance (accountName : String) (value : ℚ)
  | interest (accountName : String) (interestRate : ℚ)
      (valueLowerBound valueUpperBound : Option ℚ)
      (accrualStartTime accrualEndTime : Time)
      (internalSavedValue : Option ℚ) (internalSavedNum : String)
      (internalSavedValueTimeStamp : Time) (internalVariableKey : String)
  deriving DecidableEq

/-- Common order fields (`rhizopus/broker.py`, `Order.__init__`). -/
structure Order where
  age : ℕ
  status : OrderStatus
  statusTimeStamp : Time
  statusComment : String
  gid : ℕ
  kind : OrderKind
  deriving DecidableEq

/-- `Order.set_status` (`rhizopus/broker.py` lines 265-275): updating a
terminal (`EXECUTED`/`REJECTED`) status to a different one raises
`ValueError`; the check happens before any field is written. -/
def Order.setStatus (o : Order) (newStatus : OrderStatus) (timeStamp : Time)
    (comment : String) : Except PyError (OrderStatus × Order) :=
  if o.status ≠ newStatus ∧
      (o.status = OrderStatus.executed ∨ o.status = OrderStatus.rejected) then
    Except.error (PyError.valueError "Forbidden status update requested")
  else
    Except.ok (newStatus,
      { o with status := newStatus, statusTimeStamp := timeStamp, statusComment := comment })

/-- The non-queue part of `BrokerState`: the fields that `Order.execute`
implementations read and write. -/
structure Ledger where
  defaultNumeraire : String
  accounts : List (String × Amount)
  /-- models `BrokerState.variables` (`variables` is a reserved word in Lean) -/
  vars : List (String × ℚ)
  currentPrices : List ((String × String) × ℚ)
  recentPrices : List ((String × String) × ℚ)
  now : Time
  timeIndex : ℕ
  deriving DecidableEq

/-- A bounded FIFO queue modelling `collections.deque`:
`cap = some c` is `deque(maxlen=c)`, `cap = none` is an unbounded
sequence (plain list). -/
structure BQueue where
  cap : Option ℕ
  items : List Order
  deriving DecidableEq

/-- Keep the newest `cap` entries (a `deque` with `maxlen` drops from the
left when full; `deque(iterable, maxlen=c)` keeps the last `c` items). -/
def bqTrim : Option ℕ → List Order → List Order
  | none, l => l
  | some c, l => l.drop (l.length - c)

/-- `deque.append`. -/
def BQueue.push (q : BQueue) (o : Order) : BQueue :=
  ⟨q.cap, bqTrim q.cap (q.items ++ [o])⟩

/-- `deque.extend`. -/
def BQueue.extendL (q : BQueue) (os : List Order) : BQueue :=
  os.foldl BQueue.push q

/-- `BrokerState` (`rhizopus/broker.py`): the ledger plus the three bounded
order queues.  (`Order.execute` implementations never touch the queues,
which is why the state splits this way.) -/
structure BrokerState where
  ledger : Ledger
  activeOrders : BQueue
  executedOrders : BQueue
  rejectedOrders : BQueue
  deriving DecidableEq

/-- `BrokerState.MAX_NUM_ACTIVE_ORDERS`. -/
def MAX_NUM_ACTIVE_ORDERS : ℕ := 50000

/-- `BrokerState.MAX_NUM_EXECUTED_ORDERS`. -/
def MAX_NUM_EXECUTED_ORDERS : ℕ := 100000

/-- `BrokerState.MAX_NUM_REJECTED_ORDERS`. -/
def MAX_NUM_REJECTED_ORDERS : ℕ := 5000

/-- `get_price_from_dict` (`rhizopus/price_graph.py` lines 11-17). -/
def getPriceFromDict (prices : List ((String × String) × ℚ)) (num0 num1 : String) :
    Option ℚ :=
  if num0 = num1 then some 1 else lookupP prices (num0, num1)

/-- Python float division: `a / b` raises `ZeroDivisionError` when `b = 0`. -/
def pydiv (a b : ℚ) : Except PyError ℚ :=
  if b = 0 then Except.error PyError.zeroDivisionError else Except.ok (a / b)

/-- `MIN_TIME` (1970-01-01) in seconds since the epoch. -/
def MIN_TIME : Time := 0

/-- `MAX_TIME` (2100-01-01) in seconds since the epoch. -/
def MAX_TIME : Time := 4102444800

/-- `InterestOrder.SECONDS_IN_A_YEAR = 60*60*24*365.25`. -/
def SECONDS_IN_A_YEAR : ℚ := 31557600

/-- Value bound used by `raise_for_value` (`1e24`). -/
def MAX_OBS_VALUE : ℚ := 10 ^ (24 : ℕ)

/-- `checked_str_id` (`rhizopus/primitives.py`): identifiers must be
non-empty strings shorter than `MAX_KEY_LEN = 255` (printability only
triggers a warning, which we do not model). -/
def checkedStrId (sid : String) : Except PyError String :=
  if 0 < sid.length ∧ sid.length < 255 then Except.ok sid
  else Except.error (PyError.typeError "Wrong numeraire str passed")

/-- `checked_real` with the default bounds `[-1e24, 1e24]`
(NaN/infinity are unrepresentable in `ℚ`, so only the range check remains). -/
def checkedReal (value : ℚ) : Except PyError ℚ :=
  if -MAX_OBS_VALUE ≤ value ∧ value ≤ MAX_OBS_VALUE then Except.ok value
  else Except.error (PyError.valueError "value outside of acceptable range")

/-- `checked_amount` (`rhizopus/primitives.py`). -/
def checkedAmount (amount : Amount) : Except PyError Amount := do
  let _ ← checkedStrId amount.num
  let _ ← checkedReal amount.value
  Except.ok amount

/-- `ForwardTransferOrder.execute` (`rhizopus/orders.py` lines 281-316),
factored out so that `TransferAllOrder.execute` can reuse it for the
forward-transfer order it spawns.  `o` is the order object being executed
(whose `kind` is rebuilt with the recorded prices), `acc0`/`acc1`/`amount`
are its constructor fields. -/
def forwardTransferExecute (o : Order) (acc0 acc1 : String) (amount : Amount)
    (L : Ledger) : Except PyError (OrderStatus × Order × Ledger) :=
  match lookupA L.accounts acc0, lookupA L.accounts acc1 with
  | some a0, some a1 =>
    let value0 := a0.value; let num0 := a0.num
    let value1 := a1.value; let num1 := a1.num
    let orderValue := amount.value; let orderNum := amount.num
    let recPriceA := if 0 ≤ orderValue then getPriceFromDict L.currentPrices num0 orderNum
      else getPriceFromDict L.currentPrices orderNum num0
    let recPriceB := if 0 ≤ orderValue then getPriceFromDict L.currentPrices num0 num1
      else getPriceFromDict L.currentPrices num1 num0
    let o1 : Order := { o with kind := OrderKind.forwardTransfer acc0 acc1 amount recPriceA recPriceB }
    match recPriceA, recPriceB with
    | some pa, some pb =>
      if pa < 0 ∨ pb < 0 then
        Except.error (PyError.brokerError "Negative prices detected")
      else do
        let newValue0 ← if 0 ≤ orderValue then do
            let q ← pydiv orderValue pa
            Except.ok (value0 - q)
          else Except.ok (value0 - orderValue * pa)
        let newValue1 ← if 0 ≤ orderValue then do
            let q ← pydiv (orderValue * pb) pa
            Except.ok (value1 + q)
          else do
            let q ← pydiv (orderValue * pa) pb
            Except.ok (value1 + q)
        let accounts1 := setA (setA L.accounts acc0 ⟨newValue0, num0⟩) acc1 ⟨newValue1, num1⟩
        let (st, o2) ← o1.setStatus OrderStatus.executed L.now ""
        Except.ok (st, o2, { L with accounts := accounts1 })
    | _, _ => Except.ok (OrderStatus.active, o1, L)
  | _, _ => do
    let (st, o1) ← o.setStatus OrderStatus.rejected L.now
      "Unable to transfer from or to a non-existent account"
    Except.ok (st, o1, L)

/-- `BackwardTransferOrder.execute` (`rhizopus/orders.py` lines 203-236). -/
def backwardTransferExecute (o : Order) (acc0 acc1 : String) (amount : Amount)
    (L : Ledger) : Except PyError (OrderStatus × Order × Ledger) :=
  match lookupA L.accounts acc0, lookupA L.accounts acc1 with
  | some a0, some a1 =>
    let value0 := a0.value; let num0 := a0.num
    let value1 := a1.value; let num1 := a1.num
    let orderValue := amount.value; let orderNum := amount.num
    let recPriceA := if 0 ≤ orderValue then getPriceFromDict L.currentPrices num0 num1
      else getPriceFromDict L.currentPrices num1 num0
    let recPriceB := if 0 ≤ orderValue then getPriceFromDict L.currentPrices num1 orderNum
      else getPriceFromDict L.currentPrices orderNum num1
    let o1 : Order := { o with kind := OrderKind.backwardTransfer acc0 acc1 amount recPriceA recPriceB }
    match recPriceA, recPriceB with
    | some pa, some pb =>
      if pa < 0 ∨ pb < 0 then
        Except.error (PyError.brokerError "Negative prices detected")
      else do
        let newValue0 ← if 0 ≤ orderValue then do
            let q ← pydiv orderValue (pa * pb)
            Except.ok (value0 - q)
          else Except.ok (value0 - orderValue * pa * pb)
        let newValue1 ← if 0 ≤ orderValue then do
            let q ← pydiv orderValue pb
            Except.ok (value1 + q)
          else Except.ok (value1 + orderValue * pb)
        let accounts1 := setA (setA L.accounts acc0 ⟨newValue0, num0⟩) acc1 ⟨newValue1, num1⟩
        let (st, o2) ← o1.setStatus OrderStatus.executed L.now ""
        Except.ok (st, o2, { L with accounts := accounts1 })
    | _, _ => Except.ok (OrderStatus.active, o1, L)
  | _, _ => do
    let (st, o1) ← o.setStatus OrderStatus.rejected L.now
      "Unable to transfer from or to a non-existent account"
    Except.ok (st, o1, L)

/-- The `ForwardTransferOrder(...)` constructor as invoked by
`TransferAllOrder.execute`: re-runs the identifier/amount checks and
builds a fresh order with the default base fields and the caller's `gid`. -/
def mkForwardTransferOrder (acc0 acc1 : String) (amount : Amount) (gid : ℕ) :
    Except PyError Order := do
  let _ ← checkedStrId acc0
  let _ ← checkedStrId acc1
  if acc0 = acc1 then
    Except.error (PyError.valueError "Source and destination accounts must be different")
  else do
    let _ ← checkedAmount amount
    Except.ok { age := 0, status := OrderStatus.active, statusTimeStamp := MIN_TIME,
                statusComment := "", gid := gid,
                kind := OrderKind.forwardTransfer acc0 acc1 amount none none }

/-- `Order.execute` for the order variants of `rhizopus/orders.py`, by case
on the variant tag.  Returns the status reported by the execution attempt,
the (possibly mutated) order object and the (possibly mutated) ledger. -/
def Order.execute (o : Order) (L : Ledger) : Except PyError (OrderStatus × Order × Ledger) :=
  match o.kind with
  | OrderKind.createAccount accountName amount =>
    -- `CreateAccountOrder.execute` (orders.py lines 47-55)
    match lookupA L.accounts accountName with
    | some _ => do
      let (st, o1) ← o.setStatus OrderStatus.rejected L.now "Account already exists"
      Except.ok (st, o1, L)
    | none => do
      let L1 := { L with accounts := setA L.accounts accountName amount }
      let (st, o1) ← o.setStatus OrderStatus.executed L.now ""
      Except.ok (st, o1, L1)
  | OrderKind.deleteAccount accountName =>
    -- `DeleteAccountOrder.execute` (orders.py lines 86-97)
    match lookupA L.accounts accountName with
    | none => do
      let (st, o1) ← o.setStatus OrderStatus.rejected L.now "Account not found"
      Except.ok (st, o1, L)
    | some a =>
      if EPS_FINANCIAL < |a.value| then do
        let (st, o1) ← o.setStatus OrderStatus.active L.now ""
        Except.ok (st, o1, L)
      else do
        let L1 := { L with accounts := eraseA L.accounts accountName }
        let (st, o1) ← o.setStatus OrderStatus.executed L.now ""
        Except.ok (st, o1, L1)
  | OrderKind.transferAll acc0 acc1 persistent =>
    -- `TransferAllOrder.execute` (orders.py lines 132-156)
    match lookupA L.accounts acc0, lookupA L.accounts acc1 with
    | some a0, some _ =>
      if |a0.value| < 1 / 1000000000000 then
        if persistent then Except.ok (OrderStatus.active, o, L)
        else do
          let (st, o1) ← o.setStatus OrderStatus.executed L.now ""
          Except.ok (st, o1, L)
      else do
        let spawned ← mkForwardTransferOrder acc0 acc1 a0 o.gid
        -- the spawned order's resulting status and object are discarded;
        -- only its ledger mutations survive
        let (_, _, L1) ← forwardTransferExecute spawned acc0 acc1 a0 L
        if persistent then Except.ok (OrderStatus.active, o, L1)
        else do
          let (st, o1) ← o.setStatus OrderStatus.executed L1.now ""
          Except.ok (st, o1, L1)
    | _, _ =>
      if persistent then Except.ok (OrderStatus.active, o, L)
      else do
        let (st, o1) ← o.setStatus OrderStatus.executed L.now ""
        Except.ok (st, o1, L)
  | OrderKind.forwardTransfer acc0 acc1 amount _ _ =>
    forwardTransferExecute o acc0 acc1 amount L
  | OrderKind.backwardTransfer acc0 acc1 amount _ _ =>
    backwardTransferExecute o acc0 acc1 amount L
  | OrderKind.addToVariable variableName value =>
    -- `AddToVariableOrder.execute` (orders.py lines 357-362)
    let newValue := match lookupA L.vars variableName with
      | some old => old + value
      | none => value
    do
      let (st, o1) ← o.setStatus OrderStatus.executed L.now ""
      Except.ok (st, o1, { L with vars := setA L.vars variableName newValue })
  | OrderKind.addToAccountBalance accountName value =>
    -- `AddToAccountBalanceOrder.execute` (orders.py lines 417-424)
    match lookupA L.accounts accountName with
    | none => do
      let (st, o1) ← o.setStatus OrderStatus.rejected L.now "Account not found."
      Except.ok (st, o1, L)
    | some a => do
      let L1 := { L with accounts := setA L.accounts accountName ⟨a.value + value, a.num⟩ }
      let (st, o1) ← o.setStatus OrderStatus.executed L.now ""
      Except.ok (st, o1, L1)
  | OrderKind.interest accountName interestRate valueLowerBound valueUpperBound
      accrualStartTime accrualEndTime internalSavedValue _internalSavedNum
      internalSavedValueTimeStamp internalVariableKey =>
    -- `InterestOrder.execute` (orders.py lines 529-561)
    match lookupA L.accounts accountName with
    | none => Except.ok (o.status, o, L)  -- returns `self.status` without `set_status`
    | some a => do
      let accrue : Option ℚ := match internalSavedValue with
        | none => none  -- `math.isfinite(nan)` is false: skip accrual
        | some sv =>
          if (match valueLowerBound with | none => true | some lb => decide (lb ≤ sv)) &&
             (match valueUpperBound with | none => true | some ub => decide (sv ≤ ub)) &&
             decide (accrualStartTime ≤ L.now) && decide (L.now ≤ accrualEndTime)
          then some sv else none
      let (L1, newSaved) ← match accrue with
        | none => Except.ok (L, (a.value, a.num))
        | some sv => do
          let timeDeltaYears : ℚ := ((L.now - internalSavedValueTimeStamp : ℤ) : ℚ) / SECONDS_IN_A_YEAR
          if timeDeltaYears < 0 then
            Except.error (PyError.brokerError "Negative time delta during interest calculation")
          else do
            let interestAmt := sv * interestRate * timeDeltaYears
            let newValue := a.value + interestAmt
            let cumInterest := (match lookupA L.vars internalVariableKey with
              | some c => c | none => 0) + interestAmt
            let L1 := { L with
              accounts := setA L.accounts accountName ⟨newValue, a.num⟩,
              vars := setA L.vars internalVariableKey cumInterest }
            Except.ok (L1, (newValue, a.num))
      let newKind := OrderKind.interest accountName interestRate
        valueLowerBound valueUpperBound accrualStartTime accrualEndTime
        (some newSaved.1) newSaved.2 L.now internalVariableKey
      let o1 := { o with kind := newKind }
      let (st, o2) ← o1.setStatus OrderStatus.active L.now ""
      Except.ok (st, o2, L1)

/-- The scanning loop of `find_path` (`rhizopus/price_graph.py` lines 20-55):
`scan` is the remainder of the `for pair in edges` loop, `tp` the
`traversed_path` argument, `d` the `max_depth` available to recursive calls
(the Python call at depth `max_depth` recurses with `max_depth - 1`).
The `visited_nodes` set is the set of sources of `traversed_path`. -/
def fpScan (edges : List (String × String)) (d : ℕ) (scan : List (String × String))
    (tp : List (String × String)) (s t : String) : Option (List (String × String)) :=
  match scan with
  | [] => none
  | pair :: rest =>
    if pair.1 = s then
      if pair.2 = t then some (tp ++ [pair])
      else if pair.2 ∈ tp.map Prod.fst then fpScan edges d rest tp s t
      else
        match (match d with
               | 0 => none
               | Nat.succ d1 => fpScan edges d1 edges (tp ++ [pair]) pair.2 t) with
        | some p => some p
        | none => fpScan edges d rest tp s t
    else fpScan edges d rest tp s t
termination_by (d, scan.length)

/-- `find_path` (`rhizopus/price_graph.py` lines 20-55): returns `None`
immediately when `max_depth = 0`, otherwise scans all edges. -/
def findPath (edges tp : List (String × String)) (s t : String) (d : ℕ) :
    Option (List (String × String)) :=
  match d with
  | 0 => none
  | Nat.succ d1 => fpScan edges d1 edges tp s t

/-- `reduce(mul, [prices[pair] for pair in path])`: the product of the edge
rates along a path.  (All path edges returned by `find_path` are keys of
`prices`, so the `getD` default is never used.) -/
def pathProduct (prices : List ((String × String) × ℚ))
    (path : List (String × String)) : ℚ :=
  (path.map fun e => ((lookupP prices e).getD 0)).foldl (fun x y => x * y) 1

/-- `calc_path_price` (`rhizopus/price_graph.py` lines 58-75) with the
default `max_depth = 3` of `find_path`.  (The `None`-argument guard of the
Python code is unreachable in this typed embedding.) -/
def calcPathPrice (prices : List ((String × String) × ℚ)) (num0 num1 : String) :
    Option ℚ :=
  if num0 = num1 then some 1
  else
    match lookupP prices (num0, num1) with
    | some p => some p
    | none => (findPath (prices.map Prod.fst) [] num0 num1 3).map (pathProduct prices)

/-- One insertion step of a stable sort by ascending `age`: the new element
goes before the first element of strictly larger age, hence after all
earlier elements of equal age (this is the characteristic property of
Python's stable `sorted(..., key=lambda o: o.age)`). -/
def insertByAge (a : Order) : List Order → List Order
  | [] => [a]
  | b :: l => if a.age ≤ b.age then a :: b :: l else b :: insertByAge a l

/-- Stable sort by ascending `age`, modelling
`sorted(broker_state.active_orders, key=lambda o: o.age)`. -/
def sortByAge : List Order → List Order
  | [] => []
  | a :: l => insertByAge a (sortByAge l)

/-- Reference run of a list of orders against a ledger: execute each in
sequence, record the (mutated order, reported status) outcomes and thread
the ledger through.  This is the queue-free skeleton of
`BrokerSimulator._process_orders`. -/
def runOrders : List Order → Ledger → Except PyError (List (Order × OrderStatus) × Ledger)
  | [], L => Except.ok ([], L)
  | o :: rest, L => do
    let (st, o1, L1) ← o.execute L
    let (outs, L2) ← runOrders rest L1
    Except.ok ((o1, st) :: outs, L2)

/-- The loop body of `BrokerSimulator._process_orders`
(`rhizopus/broker_simulator.py` lines 163-184): `postponed` is the
`postponed_orders` accumulator; at the end the active queue is cleared and
re-filled with the postponed orders. -/
def processLoop : List Order → BrokerState → List Order → Except PyError BrokerState
  | [], s, postponed =>
    Except.ok { s with
      activeOrders := BQueue.extendL ⟨s.activeOrders.cap, []⟩ postponed }
  | o :: rest, s, postponed => do
    let (st, o1, L1) ← o.execute s.ledger
    match st with
    | OrderStatus.executed =>
      processLoop rest
        { s with ledger := L1, executedOrders := s.executedOrders.push o1 } postponed
    | OrderStatus.active =>
      processLoop rest { s with ledger := L1 }
        (postponed ++ [{ o1 with age := o1.age + 1 }])
    | OrderStatus.rejected =>
      processLoop rest
        { s with ledger := L1, rejectedOrders := s.rejectedOrders.push o1 } postponed

/-- `BrokerSimulator._process_orders`: active orders are processed in
ascending order of age (stably), then the active queue is replaced by the
postponed orders. -/
def processOrders (s : BrokerState) : Except PyError BrokerState :=
  processLoop (sortByAge s.activeOrders.items) s []

/-- A filter (`rhizopus/broker_simulator.py`, `Filter`): consumes one order,
produces any number of orders.  Per the spec it is a pure function of the
broker state and the order. -/
abbrev OrderFilter : Type := BrokerState → Order → List Order

/-- The state owned by `BrokerSimulator` itself: per-edge price series
(each series modelled as the `dict(series)` time-to-price map), the sorted
time grid, the current grid index and the group-id counter. -/
structure SimState where
  filters : List OrderFilter
  defaultNumeraire : String
  prices : List ((String × String) × List (Int × ℚ))
  timeGrid : List Time
  timeIndex : ℕ
  groupId : ℕ

/-- Lookup in a time-indexed series (the `dict(series)` of
`BrokerSimulator.__init__`; timestamps within one series are unique). -/
def lookupT : List (Int × ℚ) → Int → Option ℚ
  | [], _ => none
  | (k, v) :: rest, a => if k = a then some v else lookupT rest a

/-- `BrokerSimulator._update_current_prices` (lines 157-161): clear
`current_prices` and include, for every edge, the observation at `now`
if one exists. -/
def updateCurrentPrices (sim : SimState) (L : Ledger) : Ledger :=
  { L with currentPrices :=
      sim.prices.filterMap fun kv =>
        (lookupT kv.2 L.now).map fun p => (kv.1, p) }

/-- `BrokerSimulator.next` (`rhizopus/broker_simulator.py` lines 143-155):
increment the time index first; past the end of the grid raise
`BrokerError`; exactly at the end return the `None` sentinel; otherwise
advance the broker state, refresh current prices and process orders. -/
def simNext (sim : SimState) (s : BrokerState) :
    Except PyError (Option Time × SimState × BrokerState) :=
  let i := sim.timeIndex + 1
  let sim1 := { sim with timeIndex := i }
  if sim.timeGrid.length < i then
    Except.error (PyError.brokerError "Backtest end of time reached")
  else if sim.timeGrid.length = i then
    Except.ok (none, sim1, s)
  else
    -- here `i < sim.timeGrid.length`, so the grid access is in range
    let t := sim.timeGrid.getD i 0
    let L1 := updateCurrentPrices sim
      { s.ledger with timeIndex := i, now := t, defaultNumeraire := sim.defaultNumeraire }
    match processOrders { s with ledger := L1 } with
    | Except.error e => Except.error e
    | Except.ok s1 => Except.ok (some s1.ledger.now, sim1, s1)

/-- The inner while loop of `BrokerSimulator.fill_order` for one filter
stage: pop inputs FIFO, present the filter with the view
snapshot ++ pending inputs ++ outputs so far, collect outputs. -/
def stageLoop (f : OrderFilter) (snapshot : List Order) (s : BrokerState) :
    List Order → List Order → List Order
  | [], outputs => outputs
  | i :: rest, outputs =>
    let view : BrokerState :=
      { s with activeOrders := ⟨none, snapshot ++ rest ++ outputs⟩ }
    stageLoop f snapshot s rest (outputs ++ f view i)

/-- The stage iteration of `BrokerSimulator.fill_order`: the outputs of each
filter stage become the inputs of the next. -/
def runStages (snapshot : List Order) (s : BrokerState) :
    List OrderFilter → List Order → List Order
  | [], inputs => inputs
  | f :: fs, inputs => runStages snapshot s fs (stageLoop f snapshot s inputs [])

/-- `BrokerSimulator.fill_order` (`rhizopus/broker_simulator.py` lines
186-222): assign a fresh group id; with no filters append directly to the
active queue; otherwise run the filter chain against a snapshot of the
active queue and rebuild the active queue as
`deque(active_orders_snapshot, maxlen=1000)` extended by the final
outputs. -/
def fillOrder (sim : SimState) (o : Order) (s : BrokerState) : SimState × BrokerState :=
  let gid := sim.groupId + 1
  let sim1 := { sim with groupId := gid }
  let o1 := { o with gid := gid }
  match sim.filters with
  | [] => (sim1, { s with activeOrders := s.activeOrders.push o1 })
  | f :: fs =>
    let snapshot := s.activeOrders.items
    let outputs := runStages snapshot s (f :: fs) [o1]
    (sim1, { s with activeOrders :=
      BQueue.extendL ⟨some 1000, bqTrim (some 1000) snapshot⟩ outputs })

/-- `Broker.get_value_account` (`rhizopus/broker.py` lines 415-432).
An empty `num0` selects the default numeraire.  For a negative balance the
Python code computes `1.0 / calc_path_price(...)`, which raises `TypeError`
when the path price is `None` and `ZeroDivisionError` when it is zero. -/
def getValueAccount (L : Ledger) (acc : String) (num0 : String) :
    Except PyError (Option ℚ) :=
  let n0 := if num0 = "" then L.defaultNumeraire else num0
  match lookupA L.accounts acc with
  | none => Except.ok none
  | some a =>
    if |a.value| < EPS_FINANCIAL then Except.ok (some 0)
    else if a.value < 0 then
      match calcPathPrice L.recentPrices n0 a.num with
      | none => Except.error (PyError.typeError "unsupported operand type for /")
      | some p => do
        let lastPrice ← pydiv 1 p
        Except.ok (some (a.value * lastPrice))
    else
      match calcPathPrice L.recentPrices a.num n0 with
      | none => Except.ok none
      | some p => Except.ok (some (a.value * p))

section AssocLemmas

theorem lookupA_setA_self {β : Type} (m : List (String × β)) (k : String) (b : β) :
    lookupA (setA m k b) k = some b := by
  induction m with
  | nil => simp [setA, lookupA]
  | cons hd tl ih =>
    obtain ⟨k0, v0⟩ := hd
    by_cases h : k0 = k
    · simp [setA, lookupA, h]
    · simp [setA, lookupA, h, ih]

theorem lookupA_setA_ne {β : Type} (m : List (String × β)) (k a : String) (b : β)
    (h : k ≠ a) : lookupA (setA m k b) a = lookupA m a := by
  induction m with
  | nil => simp [setA, lookupA, h]
  | cons hd tl ih =>
    obtain ⟨k0, v0⟩ := hd
    by_cases h0 : k0 = k
    · subst h0
      simp [setA, lookupA, h]
    · simp only [setA, if_neg h0]
      by_cases h1 : k0 = a
      · simp [lookupA, h1]
      · simp [lookupA, h1, ih]

theorem lookupA_eraseA {β : Type} (m : List (String × β)) (k a : String)
    (h : k ≠ a) : lookupA (eraseA m k) a = lookupA m a := by
  induction m with
  | nil => simp [eraseA]
  | cons hd tl ih =>
    obtain ⟨k0, v0⟩ := hd
    by_cases h0 : k0 = k
    · subst h0
      simp [eraseA, lookupA, h]
    · simp only [eraseA, if_neg h0]
      by_cases h1 : k0 = a
      · simp [lookupA, h1]
      · simp [lookupA, h1, ih]

end AssocLemmas

/-- **C1**: executing a `ForwardTransferOrder(acc0, acc1, amount=(v, num))`
against a broker state in which both accounts exist with balances
`(value0, num0)` and `(value1, num1)` and both required current-tick prices
are present updates the balances exactly as follows: for `v ≥ 0` with
`price_a = rate(num0→num)` and `price_b = rate(num0→num1)`, acc0 becomes
`value0 - v/price_a` and acc1 becomes `value1 + v*price_b/price_a`; for
`v < 0` with `price_a = rate(num→num0)` and `price_b = rate(num1→num0)`,
acc0 becomes `value0 - v*price_a` and acc1 becomes `value1 + v*price_a/price_b`.
Both accounts keep their numeraires. -/
theorem C1_forwardTransfer_formulas
    (o : Order) (acc0 acc1 : String) (v : ℚ) (onum : String) (ra rb : Option ℚ)
    (L : Ledger) (v0 v1 : ℚ) (n0 n1 : String)
    (hk : o.kind = OrderKind.forwardTransfer acc0 acc1 ⟨v, onum⟩ ra rb)
    (hne : acc0 ≠ acc1)
    (h0 : lookupA L.accounts acc0 = some ⟨v0, n0⟩)
    (h1 : lookupA L.accounts acc1 = some ⟨v1, n1⟩) :
    (∀ pa pb st o1 L1, 0 ≤ v →
      getPriceFromDict L.currentPrices n0 onum = some pa →
      getPriceFromDict L.currentPrices n0 n1 = some pb →
      o.execute L = Except.ok (st, o1, L1) →
      st = OrderStatus.executed ∧
      lookupA L1.accounts acc0 = some ⟨v0 - v / pa, n0⟩ ∧
      lookupA L1.accounts acc1 = some ⟨v1 + v * pb / pa, n1⟩) ∧
    (∀ pa pb st o1 L1, v < 0 →
      getPriceFromDict L.currentPrices onum n0 = some pa →
      getPriceFromDict L.currentPrices n1 n0 = some pb →
      o.execute L = Except.ok (st, o1, L1) →
      st = OrderStatus.executed ∧
      lookupA L1.accounts acc0 = some ⟨v0 - v * pa, n0⟩ ∧
      lookupA L1.accounts acc1 = some ⟨v1 + v * pa / pb, n1⟩) := by
  constructor
  · intro pa pb st o1 L1 hv hpa hpb hok
    rw [Order.execute, hk] at hok
    simp only [forwardTransferExecute, h0, h1, if_pos hv, hpa, hpb] at hok
    rw [pydiv, pydiv] at hok
    split at hok
    · exact absurd hok (by simp)
    · split at hok
      · exact absurd hok (by simp [Bind.bind, Except.bind])
      · rw [Order.setStatus] at hok
        split at hok
        · exact absurd hok (by simp [Bind.bind, Except.bind])
        · simp only [Bind.bind, Except.bind, Except.ok.injEq, Prod.mk.injEq] at hok
          obtain ⟨hst, _, hL⟩ := hok
          subst hst
          refine ⟨rfl, ?_, ?_⟩
          · rw [← hL]
            simp only
            rw [lookupA_setA_ne _ _ _ _ (Ne.symm hne), lookupA_setA_self]
          · rw [← hL]
            simp only
            rw [lookupA_setA_self]
  · intro pa pb st o1 L1 hv hpa hpb hok
    rw [Order.execute, hk] at hok
    have hv' : ¬ (0 ≤ v) := not_le.mpr hv
    simp only [forwardTransferExecute, h0, h1, if_neg hv', hpa, hpb] at hok
    rw [pydiv] at hok
    split at hok
    · exact absurd hok (by simp)
    · split at hok
      · exact absurd hok (by simp [Bind.bind, Except.bind])
      · rw [Order.setStatus] at hok
        split at hok
        · exact absurd hok (by simp [Bind.bind, Except.bind])
        · simp only [Bind.bind, Except.bind, Except.ok.injEq, Prod.mk.injEq] at hok
          obtain ⟨hst, _, hL⟩ := hok
          subst hst
          refine ⟨rfl, ?_, ?_⟩
          · rw [← hL]
            simp only
            rw [lookupA_setA_ne _ _ _ _ (Ne.symm hne), lookupA_setA_self]
          · rw [← hL]
            simp only
            rw [lookupA_setA_self]

/-- Concrete forward transfer order for evaluating the transfer theorems:
transfer (2, USD) from account a (10 EUR) to account b (5 USD). -/
def sampleFwdOrder : Order :=
  ⟨0, OrderStatus.active, 0, "", 0, OrderKind.forwardTransfer "a" "b" ⟨2, "USD"⟩ none none⟩

/-- Concrete ledger for evaluating the transfer theorems. -/
def sampleLedger : Ledger :=
  ⟨"EUR", [("a", ⟨10, "EUR"⟩), ("b", ⟨5, "USD"⟩)], [], [(("EUR", "USD"), 2)], [], 0, 0⟩

/-- Witness for C1: the theorem applied to a concrete transfer of
(2, USD) out of a 10 EUR account at rate EURUSD = 2. -/
theorem C1_forwardTransfer_formulas_witness :
    sampleFwdOrder.execute sampleLedger =
      Except.ok (OrderStatus.executed,
        ⟨0, OrderStatus.executed, 0, "", 0,
          OrderKind.forwardTransfer "a" "b" ⟨2, "USD"⟩ (some 2) (some 2)⟩,
        { sampleLedger with accounts := [("a", ⟨9, "EUR"⟩), ("b", ⟨7, "USD"⟩)] }) ∧
    lookupA [("a", (⟨9, "EUR"⟩ : Amount)), ("b", ⟨7, "USD"⟩)] "a" = some ⟨10 - 2 / 2, "EUR"⟩ ∧
    lookupA [("a", (⟨9, "EUR"⟩ : Amount)), ("b", ⟨7, "USD"⟩)] "b" = some ⟨5 + 2 * 2 / 2, "USD"⟩ := by
  have hex : sampleFwdOrder.execute sampleLedger =
      Except.ok (OrderStatus.executed,
        ⟨0, OrderStatus.executed, 0, "", 0,
          OrderKind.forwardTransfer "a" "b" ⟨2, "USD"⟩ (some 2) (some 2)⟩,
        { sampleLedger with accounts := [("a", ⟨9, "EUR"⟩), ("b", ⟨7, "USD"⟩)] }) := by
    simp [Order.execute, forwardTransferExecute, sampleFwdOrder, sampleLedger,
      getPriceFromDict, lookupA, lookupP, pydiv, Order.setStatus, Bind.bind, Except.bind, setA]
    norm_num
  have h := (C1_forwardTransfer_formulas sampleFwdOrder "a" "b" 2 "USD" none none
      sampleLedger 10 5 "EUR" "USD" rfl (by decide) (by decide) (by decide)).1
    2 2 _ _ _ (by norm_num) (by decide) (by decide) hex
  exact ⟨hex, h.2.1, h.2.2⟩


/-- Inversion for `Order.set_status`: a successful call returns the new
status, rewrites the three status fields, and is only possible when the
previous status equals the new one or is non-terminal. -/
theorem setStatus_ok (o : Order) (newStatus : OrderStatus) (t : Time) (c : String)
    (st : OrderStatus) (o1 : Order)
    (h : o.setStatus newStatus t c = Except.ok (st, o1)) :
    st = newStatus ∧
    o1 = { o with status := newStatus, statusTimeStamp := t, statusComment := c } ∧
    (o.status = newStatus ∨
      (o.status ≠ OrderStatus.executed ∧ o.status ≠ OrderStatus.rejected)) := by
  unfold Order.setStatus at h
  split at h
  · exact absurd h (by simp)
  case isFalse hterm =>
    push_neg at hterm
    simp only [Except.ok.injEq, Prod.mk.injEq] at h
    obtain ⟨hst, ho1⟩ := h
    refine ⟨hst.symm, ho1.symm, ?_⟩
    by_cases hs : o.status = newStatus
    · exact Or.inl hs
    · have hnt := hterm hs
      push_neg at hnt
      exact Or.inr hnt

/-- `Order.set_status` always succeeds on an `ACTIVE` order. -/
theorem setStatus_ok_of_active (o : Order) (newStatus : OrderStatus) (t : Time) (c : String)
    (hact : o.status = OrderStatus.active) :
    o.setStatus newStatus t c =
      Except.ok (newStatus,
        { o with status := newStatus, statusTimeStamp := t, statusComment := c }) := by
  unfold Order.setStatus
  rw [if_neg]
  rw [hact]
  simp



/-- Inversion for `ForwardTransferOrder.execute`: every successful execution
is a rejection (missing account, ledger untouched), a postponement (missing
price, ledger untouched) or an execution (both balances rewritten in one
step, with each account keeping its numeraire). -/
theorem fwdExec_inv (o : Order) (acc0 acc1 : String) (am : Amount) (L : Ledger)
    (st : OrderStatus) (o1 : Order) (L1 : Ledger)
    (h : forwardTransferExecute o acc0 acc1 am L = Except.ok (st, o1, L1)) :
    (st = OrderStatus.rejected ∧ L1 = L ∧
      (lookupA L.accounts acc0 = none ∨ lookupA L.accounts acc1 = none) ∧
      o1.status = OrderStatus.rejected ∧ o1.statusComment ≠ "" ∧
      (o.status = OrderStatus.active ∨ o.status = OrderStatus.rejected)) ∨
    (st = OrderStatus.active ∧ L1 = L ∧ o1.status = o.status) ∨
    (st = OrderStatus.executed ∧
      (o.status = OrderStatus.active ∨ o.status = OrderStatus.executed) ∧
      o1.status = OrderStatus.executed ∧
      ∃ a0 a1 v0 v1, lookupA L.accounts acc0 = some a0 ∧ lookupA L.accounts acc1 = some a1 ∧
        L1 = { L with accounts := setA (setA L.accounts acc0 ⟨v0, a0.num⟩) acc1 ⟨v1, a1.num⟩ }) := by
  unfold forwardTransferExecute at h
  dsimp only at h
  split at h
  case _ a0 a1 heq0 heq1 =>
    split at h
    case _ pa pb hpa hpb =>
      split at h
      · exact absurd h (by simp)
      next hneg =>
        split at h
        next hvp =>
          rw [if_pos hvp] at hpa hpb
          rw [hpa, hpb] at h
          simp only [pydiv] at h
          split at h
          · exact absurd h (by simp [Bind.bind, Except.bind])
          next hpa0 =>
            simp only [Bind.bind, Except.bind] at h
            rcases hss : Order.setStatus
                { age := o.age, status := o.status, statusTimeStamp := o.statusTimeStamp,
                  statusComment := o.statusComment, gid := o.gid,
                  kind := OrderKind.forwardTransfer acc0 acc1 am (some pa) (some pb) }
                OrderStatus.executed L.now "" with e | ⟨st2, o2⟩
            · rw [hss] at h
              exact absurd h (by simp [Except.bind])
            · obtain ⟨hst2, ho2, hsb⟩ := setStatus_ok _ _ _ _ _ _ hss
              have hosb : o.status = OrderStatus.active ∨ o.status = OrderStatus.executed := by
                rcases hsb with hsb | hsb
                · exact Or.inr hsb
                · rcases hstat : o.status with h1 | h1 | h1
                  · exact Or.inl rfl
                  · exact absurd hstat hsb.1
                  · exact absurd hstat hsb.2
              rw [hss] at h
              simp only [Except.bind, Except.ok.injEq, Prod.mk.injEq] at h
              obtain ⟨hsteq, ho1, hL⟩ := h
              exact Or.inr (Or.inr ⟨by rw [← hsteq, hst2], hosb, by rw [← ho1, ho2],
                a0, a1, _, _, heq0, heq1, hL.symm⟩)
        next hvp =>
          rw [if_neg hvp] at hpa hpb
          rw [hpa, hpb] at h
          simp only [pydiv] at h
          split at h
          · exact absurd h (by simp [Bind.bind, Except.bind])
          next hpb0 =>
            simp only [Bind.bind, Except.bind] at h
            rcases hss : Order.setStatus
                { age := o.age, status := o.status, statusTimeStamp := o.statusTimeStamp,
                  statusComment := o.statusComment, gid := o.gid,
                  kind := OrderKind.forwardTransfer acc0 acc1 am (some pa) (some pb) }
                OrderStatus.executed L.now "" with e | ⟨st2, o2⟩
            · rw [hss] at h
              exact absurd h (by simp [Except.bind])
            · obtain ⟨hst2, ho2, hsb⟩ := setStatus_ok _ _ _ _ _ _ hss
              have hosb : o.status = OrderStatus.active ∨ o.status = OrderStatus.executed := by
                rcases hsb with hsb | hsb
                · exact Or.inr hsb
                · rcases hstat : o.status with h1 | h1 | h1
                  · exact Or.inl rfl
                  · exact absurd hstat hsb.1
                  · exact absurd hstat hsb.2
              rw [hss] at h
              simp only [Except.bind, Except.ok.injEq, Prod.mk.injEq] at h
              obtain ⟨hsteq, ho1, hL⟩ := h
              exact Or.inr (Or.inr ⟨by rw [← hsteq, hst2], hosb, by rw [← ho1, ho2],
                a0, a1, _, _, heq0, heq1, hL.symm⟩)
    case _ hnp =>
      simp only [Except.ok.injEq, Prod.mk.injEq] at h
      obtain ⟨hst, ho1, hL⟩ := h
      exact Or.inr (Or.inl ⟨hst.symm, hL.symm, by rw [← ho1]⟩)
  case _ hmiss =>
    rcases hss : Order.setStatus o OrderStatus.rejected L.now
        "Unable to transfer from or to a non-existent account" with e | ⟨st2, o2⟩
    · rw [hss] at h
      exact absurd h (by simp [Bind.bind, Except.bind])
    · obtain ⟨hst2, ho2, hsb⟩ := setStatus_ok _ _ _ _ _ _ hss
      rw [hss] at h
      simp only [Bind.bind, Except.bind, Except.ok.injEq, Prod.mk.injEq] at h
      obtain ⟨hsteq, ho1, hL⟩ := h
      refine Or.inl ⟨by rw [← hsteq, hst2], hL.symm, ?_, by rw [← ho1, ho2],
        by rw [← ho1, ho2]; simp, ?_⟩
      · rcases h0 : lookupA L.accounts acc0 with _ | a0
        · exact Or.inl rfl
        · rcases h1 : lookupA L.accounts acc1 with _ | a1
          · exact Or.inr rfl
          · exact absurd (hmiss a0 a1 h0 h1) (by simp)
      · rcases hsb with hsb | hsb
        · exact Or.inr hsb
        · rcases hstat : o.status with h1 | h1 | h1
          · exact Or.inl rfl
          · exact absurd hstat hsb.1
          · exact absurd hstat hsb.2

/-- Inversion for `BackwardTransferOrder.execute` (mirror of `fwdExec_inv`). -/
theorem bwdExec_inv (o : Order) (acc0 acc1 : String) (am : Amount) (L : Ledger)
    (st : OrderStatus) (o1 : Order) (L1 : Ledger)
    (h : backwardTransferExecute o acc0 acc1 am L = Except.ok (st, o1, L1)) :
    (st = OrderStatus.rejected ∧ L1 = L ∧
      (lookupA L.accounts acc0 = none ∨ lookupA L.accounts acc1 = none) ∧
      o1.status = OrderStatus.rejected ∧ o1.statusComment ≠ "" ∧
      (o.status = OrderStatus.active ∨ o.status = OrderStatus.rejected)) ∨
    (st = OrderStatus.active ∧ L1 = L ∧ o1.status = o.status) ∨
    (st = OrderStatus.executed ∧
      (o.status = OrderStatus.active ∨ o.status = OrderStatus.executed) ∧
      o1.status = OrderStatus.executed ∧
      ∃ a0 a1 v0 v1, lookupA L.accounts acc0 = some a0 ∧ lookupA L.accounts acc1 = some a1 ∧
        L1 = { L with accounts := setA (setA L.accounts acc0 ⟨v0, a0.num⟩) acc1 ⟨v1, a1.num⟩ }) := by
  unfold backwardTransferExecute at h
  dsimp only at h
  split at h
  case _ a0 a1 heq0 heq1 =>
    split at h
    case _ pa pb hpa hpb =>
      split at h
      · exact absurd h (by simp)
      next hneg =>
        split at h
        next hvp =>
          rw [if_pos hvp] at hpa hpb
          rw [hpa, hpb] at h
          simp only [pydiv] at h
          split at h
          · exact absurd h (by simp [Bind.bind, Except.bind])
          next hpab0 =>
            split at h
            · exact absurd h (by simp [Bind.bind, Except.bind])
            next hpb0 =>
              simp only [Bind.bind, Except.bind] at h
              rcases hss : Order.setStatus
                  { age := o.age, status := o.status, statusTimeStamp := o.statusTimeStamp,
                    statusComment := o.statusComment, gid := o.gid,
                    kind := OrderKind.backwardTransfer acc0 acc1 am (some pa) (some pb) }
                  OrderStatus.executed L.now "" with e | ⟨st2, o2⟩
              · rw [hss] at h
                exact absurd h (by simp [Except.bind])
              · obtain ⟨hst2, ho2, hsb⟩ := setStatus_ok _ _ _ _ _ _ hss
                have hosb : o.status = OrderStatus.active ∨ o.status = OrderStatus.executed := by
                  rcases hsb with hsb | hsb
                  · exact Or.inr hsb
                  · rcases hstat : o.status with h1 | h1 | h1
                    · exact Or.inl rfl
                    · exact absurd hstat hsb.1
                    · exact absurd hstat hsb.2
                rw [hss] at h
                simp only [Except.bind, Except.ok.injEq, Prod.mk.injEq] at h
                obtain ⟨hsteq, ho1, hL⟩ := h
                exact Or.inr (Or.inr ⟨by rw [← hsteq, hst2], hosb, by rw [← ho1, ho2],
                  a0, a1, _, _, heq0, heq1, hL.symm⟩)
        next hvp =>
          rw [if_neg hvp] at hpa hpb
          rw [hpa, hpb] at h
          simp only [Bind.bind, Except.bind] at h
          rcases hss : Order.setStatus
              { age := o.age, status := o.status, statusTimeStamp := o.statusTimeStamp,
                statusComment := o.statusComment, gid := o.gid,
                kind := OrderKind.backwardTransfer acc0 acc1 am (some pa) (some pb) }
              OrderStatus.executed L.now "" with e | ⟨st2, o2⟩
          · rw [hss] at h
            exact absurd h (by simp [Except.bind])
          · obtain ⟨hst2, ho2, hsb⟩ := setStatus_ok _ _ _ _ _ _ hss
            have hosb : o.status = OrderStatus.active ∨ o.status = OrderStatus.executed := by
              rcases hsb with hsb | hsb
              · exact Or.inr hsb
              · rcases hstat : o.status with h1 | h1 | h1
                · exact Or.inl rfl
                · exact absurd hstat hsb.1
                · exact absurd hstat hsb.2
            rw [hss] at h
            simp only [Except.bind, Except.ok.injEq, Prod.mk.injEq] at h
            obtain ⟨hsteq, ho1, hL⟩ := h
            exact Or.inr (Or.inr ⟨by rw [← hsteq, hst2], hosb, by rw [← ho1, ho2],
              a0, a1, _, _, heq0, heq1, hL.symm⟩)
    case _ hnp =>
      simp only [Except.ok.injEq, Prod.mk.injEq] at h
      obtain ⟨hst, ho1, hL⟩ := h
      exact Or.inr (Or.inl ⟨hst.symm, hL.symm, by rw [← ho1]⟩)
  case _ hmiss =>
    rcases hss : Order.setStatus o OrderStatus.rejected L.now
        "Unable to transfer from or to a non-existent account" with e | ⟨st2, o2⟩
    · rw [hss] at h
      exact absurd h (by simp [Bind.bind, Except.bind])
    · obtain ⟨hst2, ho2, hsb⟩ := setStatus_ok _ _ _ _ _ _ hss
      rw [hss] at h
      simp only [Bind.bind, Except.bind, Except.ok.injEq, Prod.mk.injEq] at h
      obtain ⟨hsteq, ho1, hL⟩ := h
      refine Or.inl ⟨by rw [← hsteq, hst2], hL.symm, ?_, by rw [← ho1, ho2],
        by rw [← ho1, ho2]; simp, ?_⟩
      · rcases h0 : lookupA L.accounts acc0 with _ | a0
        · exact Or.inl rfl
        · rcases h1 : lookupA L.accounts acc1 with _ | a1
          · exact Or.inr rfl
          · exact absurd (hmiss a0 a1 h0 h1) (by simp)
      · rcases hsb with hsb | hsb
        · exact Or.inr hsb
        · rcases hstat : o.status with h1 | h1 | h1
          · exact Or.inl rfl
          · exact absurd hstat hsb.1
          · exact absurd hstat hsb.2

/-- **C2**: for `ForwardTransferOrder` and `BackwardTransferOrder`,
`execute` (on an active order): (a) rejects with a diagnostic comment and an
unchanged ledger when either account is absent; (b) changes no ledger field
unless the reported status is `Executed`; (c) when it reports `Executed`,
both account balances are rewritten together within the same call; and
(d) when both accounts exist but a required current-tick price is missing,
it returns `Active` (postponed, not rejected) with the ledger unchanged. -/
theorem C2_transfer_error_handling
    (o : Order) (acc0 acc1 : String) (am : Amount) (ra rb : Option ℚ) (L : Ledger)
    (hst : o.status = OrderStatus.active)
    (hk : o.kind = OrderKind.forwardTransfer acc0 acc1 am ra rb ∨
          o.kind = OrderKind.backwardTransfer acc0 acc1 am ra rb) :
    ((lookupA L.accounts acc0 = none ∨ lookupA L.accounts acc1 = none) →
      ∃ o1, o.execute L = Except.ok (OrderStatus.rejected, o1, L) ∧ o1.statusComment ≠ "") ∧
    (∀ st o1 L1, o.execute L = Except.ok (st, o1, L1) → st ≠ OrderStatus.executed → L1 = L) ∧
    (∀ st o1 L1, o.execute L = Except.ok (st, o1, L1) → st = OrderStatus.executed →
      ∃ x0 x1, L1 = { L with accounts := setA (setA L.accounts acc0 x0) acc1 x1 }) ∧
    (∀ a0 a1, lookupA L.accounts acc0 = some a0 → lookupA L.accounts acc1 = some a1 →
      ((o.kind = OrderKind.forwardTransfer acc0 acc1 am ra rb ∧
        ((0 ≤ am.value ∧ (getPriceFromDict L.currentPrices a0.num am.num = none ∨
                          getPriceFromDict L.currentPrices a0.num a1.num = none)) ∨
         (am.value < 0 ∧ (getPriceFromDict L.currentPrices am.num a0.num = none ∨
                          getPriceFromDict L.currentPrices a1.num a0.num = none)))) ∨
       (o.kind = OrderKind.backwardTransfer acc0 acc1 am ra rb ∧
        ((0 ≤ am.value ∧ (getPriceFromDict L.currentPrices a0.num a1.num = none ∨
                          getPriceFromDict L.currentPrices a1.num am.num = none)) ∨
         (am.value < 0 ∧ (getPriceFromDict L.currentPrices a1.num a0.num = none ∨
                          getPriceFromDict L.currentPrices am.num a1.num = none))))) →
      ∃ o1, o.execute L = Except.ok (OrderStatus.active, o1, L)) := by
  refine ⟨?_, ?_, ?_, ?_⟩
  · -- (a) missing account: rejected, ledger untouched, diagnostic comment
    intro hmiss
    rcases hk with hk | hk
    · rw [Order.execute, hk]
      dsimp only
      unfold forwardTransferExecute
      dsimp only
      rcases hm0 : lookupA L.accounts acc0 with _ | a0 <;>
        rcases hm1 : lookupA L.accounts acc1 with _ | a1 <;>
        [skip; skip; skip; (rw [hm0, hm1] at hmiss; simp at hmiss)] <;>
      · rw [setStatus_ok_of_active _ _ _ _ hst]
        exact ⟨{ o with status := OrderStatus.rejected, statusTimeStamp := L.now, statusComment := "Unable to transfer from or to a non-existent account" }, by simp [Bind.bind, Except.bind], by simp⟩
    · rw [Order.execute, hk]
      dsimp only
      unfold backwardTransferExecute
      dsimp only
      rcases hm0 : lookupA L.accounts acc0 with _ | a0 <;>
        rcases hm1 : lookupA L.accounts acc1 with _ | a1 <;>
        [skip; skip; skip; (rw [hm0, hm1] at hmiss; simp at hmiss)] <;>
      · rw [setStatus_ok_of_active _ _ _ _ hst]
        exact ⟨{ o with status := OrderStatus.rejected, statusTimeStamp := L.now, statusComment := "Unable to transfer from or to a non-existent account" }, by simp [Bind.bind, Except.bind], by simp⟩
  · -- (b) no balance change unless executed
    intro st o1 L1 hok hne
    rcases hk with hk | hk
    · rw [Order.execute, hk] at hok
      rcases fwdExec_inv _ _ _ _ _ _ _ _ hok with ⟨_, hL, _⟩ | ⟨_, hL, _⟩ | ⟨hste, _⟩
      · exact hL
      · exact hL
      · exact absurd hste hne
    · rw [Order.execute, hk] at hok
      rcases bwdExec_inv _ _ _ _ _ _ _ _ hok with ⟨_, hL, _⟩ | ⟨_, hL, _⟩ | ⟨hste, _⟩
      · exact hL
      · exact hL
      · exact absurd hste hne
  · -- (c) executed: both balances rewritten in the same call
    intro st o1 L1 hok hste
    rcases hk with hk | hk
    · rw [Order.execute, hk] at hok
      rcases fwdExec_inv _ _ _ _ _ _ _ _ hok with ⟨hstr, _⟩ | ⟨hstr, _⟩ | ⟨_, _, _, a0, a1, v0, v1, _, _, hL⟩
      · rw [hste] at hstr; cases hstr
      · rw [hste] at hstr; cases hstr
      · exact ⟨_, _, hL⟩
    · rw [Order.execute, hk] at hok
      rcases bwdExec_inv _ _ _ _ _ _ _ _ hok with ⟨hstr, _⟩ | ⟨hstr, _⟩ | ⟨_, _, _, a0, a1, v0, v1, _, _, hL⟩
      · rw [hste] at hstr; cases hstr
      · rw [hste] at hstr; cases hstr
      · exact ⟨_, _, hL⟩
  · -- (d) missing required price: postponed (Active), ledger untouched
    intro a0 a1 h0 h1 hcase
    rcases hcase with ⟨hk, hmissp⟩ | ⟨hk, hmissp⟩
    · rw [Order.execute, hk]
      unfold forwardTransferExecute
      dsimp only
      rw [h0, h1]
      rcases hmissp with ⟨hvp, hmp⟩ | ⟨hvn, hmp⟩
      · simp only [if_pos hvp]
        rcases hpa : getPriceFromDict L.currentPrices a0.num am.num with _ | pa
        · exact ⟨_, rfl⟩
        · rcases hpb : getPriceFromDict L.currentPrices a0.num a1.num with _ | pb
          · exact ⟨_, rfl⟩
          · rw [hpa, hpb] at hmp
            simp at hmp
      · have hvp : ¬ (0 ≤ am.value) := not_le.mpr hvn
        simp only [if_neg hvp]
        rcases hpa : getPriceFromDict L.currentPrices am.num a0.num with _ | pa
        · exact ⟨_, rfl⟩
        · rcases hpb : getPriceFromDict L.currentPrices a1.num a0.num with _ | pb
          · exact ⟨_, rfl⟩
          · rw [hpa, hpb] at hmp
            simp at hmp
    · rw [Order.execute, hk]
      unfold backwardTransferExecute
      dsimp only
      rw [h0, h1]
      rcases hmissp with ⟨hvp, hmp⟩ | ⟨hvn, hmp⟩
      · simp only [if_pos hvp]
        rcases hpa : getPriceFromDict L.currentPrices a0.num a1.num with _ | pa
        · exact ⟨_, rfl⟩
        · rcases hpb : getPriceFromDict L.currentPrices a1.num am.num with _ | pb
          · exact ⟨_, rfl⟩
          · rw [hpa, hpb] at hmp
            simp at hmp
      · have hvp : ¬ (0 ≤ am.value) := not_le.mpr hvn
        simp only [if_neg hvp]
        rcases hpa : getPriceFromDict L.currentPrices a1.num a0.num with _ | pa
        · exact ⟨_, rfl⟩
        · rcases hpb : getPriceFromDict L.currentPrices am.num a1.num with _ | pb
          · exact ⟨_, rfl⟩
          · rw [hpa, hpb] at hmp
            simp at hmp

/-- Witness for C2: a transfer order naming the missing account "x" is
rejected with a diagnostic comment and an unchanged ledger. -/
theorem C2_transfer_error_handling_witness :
    ∃ o1, (Order.mk 0 OrderStatus.active 0 "" 0
        (OrderKind.forwardTransfer "a" "x" ⟨2, "USD"⟩ none none)).execute sampleLedger =
      Except.ok (OrderStatus.rejected, o1, sampleLedger) ∧ o1.statusComment ≠ "" :=
  (C2_transfer_error_handling
      (Order.mk 0 OrderStatus.active 0 "" 0
        (OrderKind.forwardTransfer "a" "x" ⟨2, "USD"⟩ none none))
      "a" "x" ⟨2, "USD"⟩ none none sampleLedger rfl (Or.inl rfl)).1
    (Or.inr (by decide))

/-- A successful `set_status` on an order whose status is terminal cannot
change the status field. -/
theorem setStatus_ok_terminal (o : Order) (n : OrderStatus) (t : Time) (c : String)
    (st : OrderStatus) (o1 : Order)
    (hterm : o.status = OrderStatus.executed ∨ o.status = OrderStatus.rejected)
    (h : o.setStatus n t c = Except.ok (st, o1)) : o1.status = o.status := by
  obtain ⟨_, ho1, hd⟩ := setStatus_ok _ _ _ _ _ _ h
  rcases hd with hd | hd
  · rw [ho1]
    exact hd.symm
  · rcases hterm with ht | ht
    · exact absurd ht hd.1
    · exact absurd ht hd.2

/-- **C8**: order status terminality.  For an order whose status is
`Executed` or `Rejected`: (a) `set_status` to any different status raises
`ValueError` (so the status is left unchanged); (b) setting the same status
again succeeds; and consequently (c) every successful `execute` of such an
order leaves its status field unchanged, so no order ever transitions out
of a terminal status. -/
theorem C8_terminal_status
    (o : Order) (t : Time) (c : String)
    (hterm : o.status = OrderStatus.executed ∨ o.status = OrderStatus.rejected) :
    (∀ n, n ≠ o.status → ∃ msg, o.setStatus n t c = Except.error (PyError.valueError msg)) ∧
    (o.setStatus o.status t c =
      Except.ok (o.status, { o with statusTimeStamp := t, statusComment := c })) ∧
    (∀ L st o1 L1, o.execute L = Except.ok (st, o1, L1) → o1.status = o.status) := by
  refine ⟨?_, ?_, ?_⟩
  · intro n hn
    refine ⟨"Forbidden status update requested", ?_⟩
    unfold Order.setStatus
    rw [if_pos ⟨fun hc => hn hc.symm, hterm⟩]
  · unfold Order.setStatus
    rw [if_neg (by simp)]
  · intro L st o1 L1 hok
    rw [Order.execute] at hok
    rcases hkind : o.kind with
        ⟨name, am⟩ | ⟨name⟩ | ⟨a0, a1, pers⟩ | ⟨a0, a1, am, ra, rb⟩ | ⟨a0, a1, am, ra, rb⟩ |
        ⟨name, value⟩ | ⟨name, value⟩ |
        ⟨name, rate, lb, ub, ast, aet, sv, sn, svt, keyv⟩ <;>
      rw [hkind] at hok <;> dsimp only at hok
    · -- createAccount
      split at hok <;>
      · rcases hss : Order.setStatus o _ L.now _ with e | ⟨st2, o2⟩
        · rw [hss] at hok
          exact absurd hok (by simp [Bind.bind, Except.bind])
        · rw [hss] at hok
          simp only [Bind.bind, Except.bind, Except.ok.injEq, Prod.mk.injEq] at hok
          rw [← hok.2.1]
          exact setStatus_ok_terminal _ _ _ _ _ _ hterm hss
    · -- deleteAccount
      split at hok
      · rcases hss : Order.setStatus o _ L.now _ with e | ⟨st2, o2⟩
        · rw [hss] at hok
          exact absurd hok (by simp [Bind.bind, Except.bind])
        · rw [hss] at hok
          simp only [Bind.bind, Except.bind, Except.ok.injEq, Prod.mk.injEq] at hok
          rw [← hok.2.1]
          exact setStatus_ok_terminal _ _ _ _ _ _ hterm hss
      · split at hok <;>
        · rcases hss : Order.setStatus o _ L.now _ with e | ⟨st2, o2⟩
          · rw [hss] at hok
            exact absurd hok (by simp [Bind.bind, Except.bind])
          · rw [hss] at hok
            simp only [Bind.bind, Except.bind, Except.ok.injEq, Prod.mk.injEq] at hok
            rw [← hok.2.1]
            exact setStatus_ok_terminal _ _ _ _ _ _ hterm hss
    · -- transferAll
      split at hok
      case _ ax amy h1 h2 =>
        split at hok
        · split at hok
          · simp only [Except.ok.injEq, Prod.mk.injEq] at hok
            rw [← hok.2.1]
          · rcases hss : Order.setStatus o _ L.now _ with e | ⟨st2, o2⟩
            · rw [hss] at hok
              exact absurd hok (by simp [Bind.bind, Except.bind])
            · rw [hss] at hok
              simp only [Bind.bind, Except.bind, Except.ok.injEq, Prod.mk.injEq] at hok
              rw [← hok.2.1]
              exact setStatus_ok_terminal _ _ _ _ _ _ hterm hss
        · rcases hmk : mkForwardTransferOrder a0 a1 ax o.gid with e | spawned
          · rw [hmk] at hok
            exact absurd hok (by simp [Bind.bind, Except.bind])
          · rw [hmk] at hok
            simp only [Bind.bind, Except.bind] at hok
            rcases hfx : forwardTransferExecute spawned a0 a1 ax L with e | ⟨st3, o3, L3⟩
            · rw [hfx] at hok
              exact absurd hok (by simp [Except.bind])
            · rw [hfx] at hok
              simp only [Except.bind] at hok
              split at hok
              · simp only [Except.ok.injEq, Prod.mk.injEq] at hok
                rw [← hok.2.1]
              · rcases hss : Order.setStatus o _ L3.now _ with e | ⟨st2, o2⟩
                · rw [hss] at hok
                  exact absurd hok (by simp [Bind.bind, Except.bind])
                · rw [hss] at hok
                  simp only [Bind.bind, Except.bind, Except.ok.injEq, Prod.mk.injEq] at hok
                  rw [← hok.2.1]
                  exact setStatus_ok_terminal _ _ _ _ _ _ hterm hss
      case _ =>
        split at hok
        · simp only [Except.ok.injEq, Prod.mk.injEq] at hok
          rw [← hok.2.1]
        · rcases hss : Order.setStatus o _ L.now _ with e | ⟨st2, o2⟩
          · rw [hss] at hok
            exact absurd hok (by simp [Bind.bind, Except.bind])
          · rw [hss] at hok
            simp only [Bind.bind, Except.bind, Except.ok.injEq, Prod.mk.injEq] at hok
            rw [← hok.2.1]
            exact setStatus_ok_terminal _ _ _ _ _ _ hterm hss
    · -- forwardTransfer
      rcases fwdExec_inv _ _ _ _ _ _ _ _ hok with
        ⟨_, _, _, hs1, _, hsb⟩ | ⟨_, _, hs1⟩ | ⟨_, hsb, hs1, _⟩
      · rcases hsb with hsb | hsb
        · rcases hterm with ht | ht
          · exact absurd ht (by rw [hsb]; simp)
          · exact absurd ht (by rw [hsb]; simp)
        · rw [hs1, hsb]
      · exact hs1
      · rcases hsb with hsb | hsb
        · rcases hterm with ht | ht
          · exact absurd ht (by rw [hsb]; simp)
          · exact absurd ht (by rw [hsb]; simp)
        · rw [hs1, hsb]
    · -- backwardTransfer
      rcases bwdExec_inv _ _ _ _ _ _ _ _ hok with
        ⟨_, _, _, hs1, _, hsb⟩ | ⟨_, _, hs1⟩ | ⟨_, hsb, hs1, _⟩
      · rcases hsb with hsb | hsb
        · rcases hterm with ht | ht
          · exact absurd ht (by rw [hsb]; simp)
          · exact absurd ht (by rw [hsb]; simp)
        · rw [hs1, hsb]
      · exact hs1
      · rcases hsb with hsb | hsb
        · rcases hterm with ht | ht
          · exact absurd ht (by rw [hsb]; simp)
          · exact absurd ht (by rw [hsb]; simp)
        · rw [hs1, hsb]
    · -- addToVariable
      rcases hss : Order.setStatus o _ L.now _ with e | ⟨st2, o2⟩
      · rw [hss] at hok
        exact absurd hok (by simp [Bind.bind, Except.bind])
      · rw [hss] at hok
        simp only [Bind.bind, Except.bind, Except.ok.injEq, Prod.mk.injEq] at hok
        rw [← hok.2.1]
        exact setStatus_ok_terminal _ _ _ _ _ _ hterm hss
    · -- addToAccountBalance
      split at hok <;>
      · rcases hss : Order.setStatus o _ L.now _ with e | ⟨st2, o2⟩
        · rw [hss] at hok
          exact absurd hok (by simp [Bind.bind, Except.bind])
        · rw [hss] at hok
          simp only [Bind.bind, Except.bind, Except.ok.injEq, Prod.mk.injEq] at hok
          rw [← hok.2.1]
          exact setStatus_ok_terminal _ _ _ _ _ _ hterm hss
    · -- interest
      split at hok
      · simp only [Except.ok.injEq, Prod.mk.injEq] at hok
        rw [← hok.2.1]
      case _ a heqa =>
        simp only [Bind.bind, Except.bind] at hok
        split at hok
        · split at hok
          · exact absurd hok (by simp)
          next x heqss =>
            obtain ⟨st2, o2⟩ := x
            obtain ⟨_, _, hd⟩ := setStatus_ok _ _ _ _ _ _ heqss
            exfalso
            rcases hd with hd | hd
            · have hd1 : o.status = OrderStatus.active := hd
              rcases hterm with ht | ht <;> rw [ht] at hd1 <;> cases hd1
            · have hd1 : o.status ≠ OrderStatus.executed := hd.1
              have hd2 : o.status ≠ OrderStatus.rejected := hd.2
              rcases hterm with ht | ht
              · exact hd1 ht
              · exact hd2 ht
        next sv heqsv =>
          split at hok
          · exact absurd hok (by simp)
          · split at hok
            · exact absurd hok (by simp)
            next x heqss =>
              obtain ⟨st2, o2⟩ := x
              obtain ⟨_, _, hd⟩ := setStatus_ok _ _ _ _ _ _ heqss
              exfalso
              rcases hd with hd | hd
              · have hd1 : o.status = OrderStatus.active := hd
                rcases hterm with ht | ht <;> rw [ht] at hd1 <;> cases hd1
              · have hd1 : o.status ≠ OrderStatus.executed := hd.1
                have hd2 : o.status ≠ OrderStatus.rejected := hd.2
                rcases hterm with ht | ht
                · exact hd1 ht
                · exact hd2 ht

/-- An already-executed order, for evaluating the terminality theorem. -/
def termOrder : Order := ⟨0, OrderStatus.executed, 0, "", 0, OrderKind.addToVariable "x" 1⟩

/-- Witness for C8 at a concrete executed order. -/
theorem C8_terminal_status_witness :
    (∃ msg, termOrder.setStatus OrderStatus.active 5 "" =
      Except.error (PyError.valueError msg)) ∧
    termOrder.setStatus OrderStatus.executed 5 "" =
      Except.ok (OrderStatus.executed, { termOrder with statusTimeStamp := 5, statusComment := "" }) ∧
    (∃ st o1 L1, termOrder.execute sampleLedger = Except.ok (st, o1, L1) ∧
      o1.status = OrderStatus.executed) := by
  have h := C8_terminal_status termOrder 5 "" (Or.inl rfl)
  have hex : termOrder.execute sampleLedger =
      Except.ok (OrderStatus.executed, termOrder,
        { sampleLedger with vars := [("x", 1)] }) := by
    simp [Order.execute, termOrder, sampleLedger, lookupA, setA, Order.setStatus,
      Bind.bind, Except.bind]
  exact ⟨h.1 OrderStatus.active (by decide), h.2.1,
    ⟨_, _, _, hex, h.2.2 sampleLedger _ _ _ hex⟩⟩

/-- Every account present both before and after keeps its denominating
numeraire. -/
def NumsPreserved (A B : List (String × Amount)) : Prop :=
  ∀ acc a a1, lookupA A acc = some a → lookupA B acc = some a1 → a1.num = a.num

theorem NP_refl (A : List (String × Amount)) : NumsPreserved A A := by
  intro acc a a1 h1 h2
  rw [h1] at h2
  cases h2
  rfl

theorem NP_setA (A : List (String × Amount)) (k : String) (x : Amount)
    (h : ∀ a, lookupA A k = some a → x.num = a.num) :
    NumsPreserved A (setA A k x) := by
  intro acc a a1 h1 h2
  by_cases hk : k = acc
  · subst hk
    rw [lookupA_setA_self] at h2
    cases h2
    exact h a h1
  · rw [lookupA_setA_ne _ _ _ _ hk] at h2
    rw [h1] at h2
    cases h2
    rfl

theorem NP_set2 (A : List (String × Amount)) (acc0 acc1 : String) (a0 a1 : Amount)
    (v0 v1 : ℚ) (h0 : lookupA A acc0 = some a0) (h1 : lookupA A acc1 = some a1) :
    NumsPreserved A (setA (setA A acc0 ⟨v0, a0.num⟩) acc1 ⟨v1, a1.num⟩) := by
  intro acc a a2 hA hB
  by_cases hk1 : acc1 = acc
  · subst hk1
    rw [lookupA_setA_self] at hB
    cases hB
    rw [h1] at hA
    cases hA
    rfl
  · rw [lookupA_setA_ne _ _ _ _ hk1] at hB
    by_cases hk0 : acc0 = acc
    · subst hk0
      rw [lookupA_setA_self] at hB
      cases hB
      rw [h0] at hA
      cases hA
      rfl
    · rw [lookupA_setA_ne _ _ _ _ hk0] at hB
      rw [hA] at hB
      cases hB
      rfl

theorem lookupA_eq_none {β : Type} (A : List (String × β)) (k : String)
    (h : k ∉ A.map Prod.fst) : lookupA A k = none := by
  induction A with
  | nil => rfl
  | cons hd tl ih =>
    obtain ⟨k0, v0⟩ := hd
    simp only [List.map_cons, List.mem_cons] at h
    push_neg at h
    have hne : k0 ≠ k := fun hc => h.1 (by rw [hc])
    rw [lookupA, if_neg hne]
    exact ih h.2

theorem lookupA_eraseA_self {β : Type} (A : List (String × β)) (k : String)
    (hnd : (A.map Prod.fst).Nodup) : lookupA (eraseA A k) k = none := by
  induction A with
  | nil => rfl
  | cons hd tl ih =>
    obtain ⟨k0, v0⟩ := hd
    simp only [List.map_cons, List.nodup_cons] at hnd
    by_cases h0 : k0 = k
    · rw [eraseA, if_pos h0]
      subst h0
      exact lookupA_eq_none _ _ hnd.1
    · rw [eraseA, if_neg h0, lookupA, if_neg h0]
      exact ih hnd.2

theorem NP_eraseA (A : List (String × Amount)) (k : String)
    (hnd : (A.map Prod.fst).Nodup) : NumsPreserved A (eraseA A k) := by
  intro acc a a1 h1 h2
  by_cases hk : k = acc
  · subst hk
    rw [lookupA_eraseA_self _ _ hnd] at h2
    cases h2
  · rw [lookupA_eraseA _ _ _ hk] at h2
    rw [h1] at h2
    cases h2
    rfl

/-- **C9**: for every order execution in the model (covering
`AddToAccountBalanceOrder`, `ForwardTransferOrder`, `BackwardTransferOrder`,
`TransferAllOrder`, `InterestOrder` and the account management orders), the
denominating numeraire of every account that exists both before and after
the execution is unchanged: only the value component of an account is ever
modified.  (Account keys are pairwise distinct, as they are in a Python
`dict`.) -/
theorem C9_numeraire_preservation (o : Order) (L : Ledger)
    (hnd : (L.accounts.map Prod.fst).Nodup) :
    ∀ st o1 L1, o.execute L = Except.ok (st, o1, L1) →
      NumsPreserved L.accounts L1.accounts := by
  intro st o1 L1 hok
  rw [Order.execute] at hok
  rcases hkind : o.kind with
      ⟨name, am⟩ | ⟨name⟩ | ⟨a0, a1, pers⟩ | ⟨a0, a1, am, ra, rb⟩ | ⟨a0, a1, am, ra, rb⟩ |
      ⟨name, value⟩ | ⟨name, value⟩ |
      ⟨name, rate, lb, ub, ast, aet, sv, sn, svt, keyv⟩ <;>
    rw [hkind] at hok <;> dsimp only at hok
  · -- createAccount
    split at hok
    case _ heqa =>
      rcases hss : Order.setStatus o _ L.now _ with e | ⟨st2, o2⟩ <;> rw [hss] at hok
      · exact absurd hok (by simp [Bind.bind, Except.bind])
      · simp only [Bind.bind, Except.bind, Except.ok.injEq, Prod.mk.injEq] at hok
        rw [← hok.2.2]
        exact NP_refl _
    case _ heqa =>
      rcases hss : Order.setStatus o _ L.now _ with e | ⟨st2, o2⟩ <;> rw [hss] at hok
      · exact absurd hok (by simp [Bind.bind, Except.bind])
      · simp only [Bind.bind, Except.bind, Except.ok.injEq, Prod.mk.injEq] at hok
        rw [← hok.2.2]
        exact NP_setA _ _ _ (fun a ha => by rw [heqa] at ha; cases ha)
  · -- deleteAccount
    split at hok
    case _ heqa =>
      rcases hss : Order.setStatus o _ L.now _ with e | ⟨st2, o2⟩ <;> rw [hss] at hok
      · exact absurd hok (by simp [Bind.bind, Except.bind])
      · simp only [Bind.bind, Except.bind, Except.ok.injEq, Prod.mk.injEq] at hok
        rw [← hok.2.2]
        exact NP_refl _
    case _ a heqa =>
      split at hok <;>
      · rcases hss : Order.setStatus o _ L.now _ with e | ⟨st2, o2⟩ <;> rw [hss] at hok
        · exact absurd hok (by simp [Bind.bind, Except.bind])
        · simp only [Bind.bind, Except.bind, Except.ok.injEq, Prod.mk.injEq] at hok
          rw [← hok.2.2]
          first
          | exact NP_refl _
          | exact NP_eraseA _ _ hnd
  · -- transferAll
    split at hok
    case _ ax amy h1 h2 =>
      split at hok
      · split at hok
        · simp only [Except.ok.injEq, Prod.mk.injEq] at hok
          rw [← hok.2.2]
          exact NP_refl _
        · rcases hss : Order.setStatus o _ L.now _ with e | ⟨st2, o2⟩ <;> rw [hss] at hok
          · exact absurd hok (by simp [Bind.bind, Except.bind])
          · simp only [Bind.bind, Except.bind, Except.ok.injEq, Prod.mk.injEq] at hok
            rw [← hok.2.2]
            exact NP_refl _
      · rcases hmk : mkForwardTransferOrder a0 a1 ax o.gid with e | spawned <;> rw [hmk] at hok
        · exact absurd hok (by simp [Bind.bind, Except.bind])
        · simp only [Bind.bind, Except.bind] at hok
          rcases hfx : forwardTransferExecute spawned a0 a1 ax L with e | ⟨st3, o3, L3⟩ <;>
            rw [hfx] at hok
          · exact absurd hok (by simp [Except.bind])
          · have hNP3 : NumsPreserved L.accounts L3.accounts := by
              rcases fwdExec_inv _ _ _ _ _ _ _ _ hfx with
                ⟨_, hL, _⟩ | ⟨_, hL, _⟩ | ⟨_, _, _, b0, b1, v0, v1, hb0, hb1, hL⟩
              · rw [hL]
                exact NP_refl _
              · rw [hL]
                exact NP_refl _
              · rw [hL]
                exact NP_set2 _ _ _ _ _ _ _ hb0 hb1
            simp only [Except.bind] at hok
            split at hok
            · simp only [Except.ok.injEq, Prod.mk.injEq] at hok
              rw [← hok.2.2]
              exact hNP3
            · rcases hss : Order.setStatus o _ L3.now _ with e | ⟨st2, o2⟩ <;> rw [hss] at hok
              · exact absurd hok (by simp [Except.bind])
              · simp only [Except.bind, Except.ok.injEq, Prod.mk.injEq] at hok
                rw [← hok.2.2]
                exact hNP3
    case _ =>
      split at hok
      · simp only [Except.ok.injEq, Prod.mk.injEq] at hok
        rw [← hok.2.2]
        exact NP_refl _
      · rcases hss : Order.setStatus o _ L.now _ with e | ⟨st2, o2⟩ <;> rw [hss] at hok
        · exact absurd hok (by simp [Bind.bind, Except.bind])
        · simp only [Bind.bind, Except.bind, Except.ok.injEq, Prod.mk.injEq] at hok
          rw [← hok.2.2]
          exact NP_refl _
  · -- forwardTransfer
    rcases fwdExec_inv _ _ _ _ _ _ _ _ hok with
      ⟨_, hL, _⟩ | ⟨_, hL, _⟩ | ⟨_, _, _, b0, b1, v0, v1, hb0, hb1, hL⟩
    · rw [hL]
      exact NP_refl _
    · rw [hL]
      exact NP_refl _
    · rw [hL]
      exact NP_set2 _ _ _ _ _ _ _ hb0 hb1
  · -- backwardTransfer
    rcases bwdExec_inv _ _ _ _ _ _ _ _ hok with
      ⟨_, hL, _⟩ | ⟨_, hL, _⟩ | ⟨_, _, _, b0, b1, v0, v1, hb0, hb1, hL⟩
    · rw [hL]
      exact NP_refl _
    · rw [hL]
      exact NP_refl _
    · rw [hL]
      exact NP_set2 _ _ _ _ _ _ _ hb0 hb1
  · -- addToVariable
    rcases hss : Order.setStatus o _ L.now _ with e | ⟨st2, o2⟩ <;> rw [hss] at hok
    · exact absurd hok (by simp [Bind.bind, Except.bind])
    · simp only [Bind.bind, Except.bind, Except.ok.injEq, Prod.mk.injEq] at hok
      rw [← hok.2.2]
      exact NP_refl _
  · -- addToAccountBalance
    split at hok
    case _ heqa =>
      rcases hss : Order.setStatus o _ L.now _ with e | ⟨st2, o2⟩ <;> rw [hss] at hok
      · exact absurd hok (by simp [Bind.bind, Except.bind])
      · simp only [Bind.bind, Except.bind, Except.ok.injEq, Prod.mk.injEq] at hok
        rw [← hok.2.2]
        exact NP_refl _
    case _ a heqa =>
      rcases hss : Order.setStatus o _ L.now _ with e | ⟨st2, o2⟩ <;> rw [hss] at hok
      · exact absurd hok (by simp [Bind.bind, Except.bind])
      · simp only [Bind.bind, Except.bind, Except.ok.injEq, Prod.mk.injEq] at hok
        rw [← hok.2.2]
        exact NP_setA _ _ _ (fun b hb => by rw [heqa] at hb; cases hb; rfl)
  · -- interest
    split at hok
    · simp only [Except.ok.injEq, Prod.mk.injEq] at hok
      rw [← hok.2.2]
      exact NP_refl _
    case _ a heqa =>
      simp only [Bind.bind, Except.bind] at hok
      split at hok
      · split at hok
        · exact absurd hok (by simp)
        next x heqss =>
          simp only [Except.ok.injEq, Prod.mk.injEq] at hok
          rw [← hok.2.2]
          exact NP_refl _
      next sv heqsv =>
        split at hok
        · exact absurd hok (by simp)
        · split at hok
          · exact absurd hok (by simp)
          next x heqss =>
            simp only [Except.ok.injEq, Prod.mk.injEq] at hok
            rw [← hok.2.2]
            exact NP_setA _ _ _ (fun b hb => by rw [heqa] at hb; cases hb; rfl)

/-- Witness for C9: the concrete forward transfer of the C1 witness
preserves both accounts' numeraires. -/
theorem C9_numeraire_preservation_witness :
    ∃ st o1 L1, sampleFwdOrder.execute sampleLedger = Except.ok (st, o1, L1) ∧
      ∀ acc a a1, lookupA sampleLedger.accounts acc = some a →
        lookupA L1.accounts acc = some a1 → a1.num = a.num := by
  have hex : sampleFwdOrder.execute sampleLedger =
      Except.ok (OrderStatus.executed,
        ⟨0, OrderStatus.executed, 0, "", 0,
          OrderKind.forwardTransfer "a" "b" ⟨2, "USD"⟩ (some 2) (some 2)⟩,
        { sampleLedger with accounts := [("a", ⟨9, "EUR"⟩), ("b", ⟨7, "USD"⟩)] }) := by
    simp [Order.execute, forwardTransferExecute, sampleFwdOrder, sampleLedger,
      getPriceFromDict, lookupA, lookupP, pydiv, Order.setStatus, Bind.bind, Except.bind, setA]
    norm_num
  exact ⟨_, _, _, hex,
    C9_numeraire_preservation sampleFwdOrder sampleLedger (by decide) _ _ _ hex⟩

/-- An edge-path (chain) from `s` to `t` through the given edge list. -/
inductive Chain (edges : List (String × String)) : String → String → List (String × String) → Prop
  | single (s t : String) (h : (s, t) ∈ edges) : Chain edges s t [(s, t)]
  | cons (s m t : String) (p : List (String × String)) (h : (s, m) ∈ edges)
      (hp : Chain edges m t p) : Chain edges s t ((s, m) :: p)

/-- Soundness of the `find_path` scanning loop: any returned path extends
the traversed prefix by a genuine chain of at most `d + 1` edges. -/
theorem fpScan_sound (edges : List (String × String)) :
    ∀ (d : ℕ) (scan tp : List (String × String)) (s t : String) (p : List (String × String)),
    scan ⊆ edges →
    fpScan edges d scan tp s t = some p →
    ∃ suf, p = tp ++ suf ∧ Chain edges s t suf ∧ suf.length ≤ d + 1 := by
  intro d
  induction d with
  | zero =>
    intro scan
    induction scan with
    | nil =>
      intro tp s t p hsub h
      rw [fpScan] at h
      cases h
    | cons pair rest ih =>
      intro tp s t p hsub h
      have hsub1 : rest ⊆ edges := fun x hx => hsub (List.mem_cons_of_mem _ hx)
      rw [fpScan] at h
      split at h
      next h1 =>
        split at h
        next h2 =>
          cases h
          refine ⟨[pair], rfl, ?_, by simp⟩
          have : pair = (s, t) := by
            obtain ⟨p1, p2⟩ := pair
            simp only at h1 h2
            rw [h1, h2]
          rw [this]
          exact Chain.single s t (this ▸ hsub (List.mem_cons_self _ _))
        next h2 =>
          split at h <;> exact ih tp s t p hsub1 h
      next h1 =>
        exact ih tp s t p hsub1 h
  | succ d ihd =>
    intro scan
    induction scan with
    | nil =>
      intro tp s t p hsub h
      rw [fpScan] at h
      cases h
    | cons pair rest ih =>
      intro tp s t p hsub h
      have hsub1 : rest ⊆ edges := fun x hx => hsub (List.mem_cons_of_mem _ hx)
      rw [fpScan] at h
      split at h
      next h1 =>
        split at h
        next h2 =>
          cases h
          refine ⟨[pair], rfl, ?_, by simp⟩
          have : pair = (s, t) := by
            obtain ⟨p1, p2⟩ := pair
            simp only at h1 h2
            rw [h1, h2]
          rw [this]
          exact Chain.single s t (this ▸ hsub (List.mem_cons_self _ _))
        next h2 =>
          split at h
          · exact ih tp s t p hsub1 h
          · rcases hinner : fpScan edges d edges (tp ++ [pair]) pair.2 t with _ | ⟨q⟩
            · rw [hinner] at h
              exact ih tp s t p hsub1 h
            · rw [hinner] at h
              cases h
              obtain ⟨suf, hq, hchain, hlen⟩ :=
                ihd edges (tp ++ [pair]) pair.2 t p (fun x hx => hx) hinner
              refine ⟨pair :: suf, by simp [hq], ?_, by simpa using hlen⟩
              have hpair : pair = (s, pair.2) := by
                obtain ⟨p1, p2⟩ := pair
                simp only at h1
                rw [h1]
              rw [hpair]
              exact Chain.cons s pair.2 t suf (hpair ▸ hsub (List.mem_cons_self _ _))
                (by simpa using hchain)
      next h1 =>
        exact ih tp s t p hsub1 h

/-- Soundness of `find_path`: a returned path is a chain of at most
`max_depth` edges. -/
theorem findPath_sound (edges tp : List (String × String)) (s t : String) (d : ℕ)
    (p : List (String × String)) (h : findPath edges tp s t d = some p) :
    ∃ suf, p = tp ++ suf ∧ Chain edges s t suf ∧ suf.length ≤ d := by
  cases d with
  | zero => cases h
  | succ d1 =>
    rw [findPath] at h
    obtain ⟨suf, hp, hc, hl⟩ := fpScan_sound edges d1 edges tp s t p (fun x hx => hx) h
    exact ⟨suf, hp, hc, hl⟩

theorem lookupP_mem {β : Type} (l : List ((String × String) × β)) (k : String × String)
    (v : β) (h : lookupP l k = some v) : k ∈ l.map Prod.fst := by
  induction l with
  | nil => cases h
  | cons hd tl ih =>
    obtain ⟨k0, v0⟩ := hd
    rw [lookupP] at h
    split at h
    next heq => simp [heq]
    next heq => simpa using Or.inr (ih h)

/-- Decidable bounded reachability: is there an edge-path of at most `d`
edges from `s` to `t`? -/
def existsChainUpTo (edges : List (String × String)) (s t : String) : ℕ → Bool
  | 0 => false
  | d + 1 => edges.any fun e =>
      decide (e.1 = s) && (decide (e.2 = t) || existsChainUpTo edges e.2 t d)

/-- Any chain of length at most `d` is found by `existsChainUpTo`. -/
theorem chain_existsChainUpTo (edges : List (String × String)) (s t : String)
    (p : List (String × String)) (hc : Chain edges s t p) :
    ∀ d, p.length ≤ d → existsChainUpTo edges s t d = true := by
  induction hc with
  | single s t h =>
    intro d hd
    cases d with
    | zero => simp at hd
    | succ d1 =>
      rw [existsChainUpTo, List.any_eq_true]
      exact ⟨(s, t), h, by simp⟩
  | cons s m t p h hp ih =>
    intro d hd
    cases d with
    | zero => simp at hd
    | succ d1 =>
      rw [existsChainUpTo, List.any_eq_true]
      refine ⟨(s, m), h, ?_⟩
      simp only [decide_eq_true_eq]
      simp only [List.length_cons] at hd
      rw [ih d1 (by omega)]
      simp

/-- Contrapositive bridge: when bounded reachability fails, every chain is
longer than `d`. -/
theorem no_short_chain (edges : List (String × String)) (s t : String) (d : ℕ)
    (h : existsChainUpTo edges s t d = false) :
    ∀ p, Chain edges s t p → d < p.length := by
  intro p hc
  by_contra hlen
  push_neg at hlen
  rw [chain_existsChainUpTo edges s t p hc d hlen] at h
  cases h

/-- **C3** (amended): (i) when the price mapping consists of exactly the two
edges a→b and b→c (a, b, c distinct), multi-hop resolution of (a, c) returns
exactly rate(a,b) * rate(b,c); (ii) for every pair of numeraires connected
only by edge-paths longer than the default max_depth = 3, resolution returns
None.  (The original claim, which allowed arbitrary additional edges in the
mapping, is refuted by `C3_path_price_counterexample`: resolution follows
the first path found in table iteration order, which need not pass through
b.) -/
theorem C3_path_price (a b c : String) (rab rbc : ℚ)
    (prices : List ((String × String) × ℚ))
    (hab : a ≠ b) (hac : a ≠ c) (hbc : b ≠ c) :
    (calcPathPrice [((a, b), rab), ((b, c), rbc)] a c = some (rab * rbc)) ∧
    ((∀ p, Chain (prices.map Prod.fst) a c p → 3 < p.length) →
      calcPathPrice prices a c = none) := by
  constructor
  · rw [calcPathPrice, if_neg hac]
    have h1 : lookupP [((a, b), rab), ((b, c), rbc)] (a, c) = none := by
      simp [lookupP, Prod.ext_iff, hbc, Ne.symm hab]
    rw [h1]
    have h2 : findPath [(a, b), (b, c)] [] a c 3 = some [(a, b), (b, c)] := by
      simp [findPath, fpScan, hbc, hab, Ne.symm hab]
    simp [h2, pathProduct, lookupP, Prod.ext_iff, hab, hbc, Ne.symm hab, Ne.symm hbc]
  · intro hno
    rw [calcPathPrice, if_neg hac]
    rcases hlp : lookupP prices (a, c) with _ | ⟨r⟩
    · rcases hfp : findPath (prices.map Prod.fst) [] a c 3 with _ | ⟨p⟩
      · simp
      · obtain ⟨suf, hp, hchain, hlen⟩ := findPath_sound _ _ _ _ _ _ hfp
        have := hno suf hchain
        omega
    · exact absurd (hno [(a, c)] (Chain.single a c (lookupP_mem _ _ _ hlp))) (by simp)

/-- Counterexample to C3 as stated: a mapping that contains the direct edges
A→B (rate 1) and B→C (rate 1) and no edge A→C, yet whose resolution of
(A, C) is 10 ≠ rate(A,B)·rate(B,C) = 1, because iteration order makes the
depth-first search find the path A→D→C first. -/
theorem C3_path_price_counterexample :
    calcPathPrice [(("A", "D"), 2), (("D", "C"), 5), (("A", "B"), 1), (("B", "C"), 1)]
        "A" "C" = some 10 ∧
    lookupP [(("A", "D"), (2 : ℚ)), (("D", "C"), 5), (("A", "B"), 1), (("B", "C"), 1)]
        ("A", "B") = some 1 ∧
    lookupP [(("A", "D"), (2 : ℚ)), (("D", "C"), 5), (("A", "B"), 1), (("B", "C"), 1)]
        ("B", "C") = some 1 ∧
    lookupP [(("A", "D"), (2 : ℚ)), (("D", "C"), 5), (("A", "B"), 1), (("B", "C"), 1)]
        ("A", "C") = none ∧
    (10 : ℚ) ≠ 1 * 1 := by
  refine ⟨?_, by simp [lookupP], by simp [lookupP], by simp [lookupP], by norm_num⟩
  simp [calcPathPrice, findPath, fpScan, lookupP, pathProduct]
  norm_num

/-- A price graph whose only path from A to C has four edges (longer than
the default max_depth of 3). -/
def chain4Prices : List ((String × String) × ℚ) :=
  [(("A", "X1"), 1), (("X1", "X2"), 1), (("X2", "X3"), 1), (("X3", "C"), 1)]

/-- Witness for C3: concrete two-edge resolution, and a four-edge chain
that resolves to None. -/
theorem C3_path_price_witness :
    calcPathPrice [(("A", "B"), 2), (("B", "C"), 3)] "A" "C" = some (2 * 3) ∧
    calcPathPrice chain4Prices "A" "C" = none := by
  have h := C3_path_price "A" "B" "C" 2 3 chain4Prices
    (by decide) (by decide) (by decide)
  exact ⟨h.1, h.2 (no_short_chain _ _ _ 3 (by decide))⟩

/-- **C4** (amended): `calc_path_price` performs no sign or finiteness
validation: a direct negative rate is returned as-is rather than raising
(conjunct 1, and concretely `C4_corrupt_price_counterexample`); transfer
order execution, by contrast, raises `BrokerError` whenever a looked-up
execution price is negative, before any balance is committed (conjuncts 2
and 3, for the two sign branches of `ForwardTransferOrder.execute`).
(The non-finite (NaN/inf) part of the original claim concerns float
special values, which have no counterpart in this rational-number
embedding; the Python code checks only `< 0.0` there, which a NaN price
passes.) -/
theorem C4_negative_price_handling :
    (∀ (prices : List ((String × String) × ℚ)) (n0 n1 : String) (r : ℚ),
      n0 ≠ n1 → lookupP prices (n0, n1) = some r → calcPathPrice prices n0 n1 = some r) ∧
    (∀ (o : Order) (acc0 acc1 : String) (v : ℚ) (onum : String) (ra rb : Option ℚ)
       (L : Ledger) (v0 v1 : ℚ) (n0 n1 : String) (pa pb : ℚ),
      o.kind = OrderKind.forwardTransfer acc0 acc1 ⟨v, onum⟩ ra rb →
      lookupA L.accounts acc0 = some ⟨v0, n0⟩ →
      lookupA L.accounts acc1 = some ⟨v1, n1⟩ →
      0 ≤ v →
      getPriceFromDict L.currentPrices n0 onum = some pa →
      getPriceFromDict L.currentPrices n0 n1 = some pb →
      (pa < 0 ∨ pb < 0) →
      o.execute L = Except.error (PyError.brokerError "Negative prices detected")) ∧
    (∀ (o : Order) (acc0 acc1 : String) (v : ℚ) (onum : String) (ra rb : Option ℚ)
       (L : Ledger) (v0 v1 : ℚ) (n0 n1 : String) (pa pb : ℚ),
      o.kind = OrderKind.forwardTransfer acc0 acc1 ⟨v, onum⟩ ra rb →
      lookupA L.accounts acc0 = some ⟨v0, n0⟩ →
      lookupA L.accounts acc1 = some ⟨v1, n1⟩ →
      v < 0 →
      getPriceFromDict L.currentPrices onum n0 = some pa →
      getPriceFromDict L.currentPrices n1 n0 = some pb →
      (pa < 0 ∨ pb < 0) →
      o.execute L = Except.error (PyError.brokerError "Negative prices detected")) := by
  refine ⟨?_, ?_, ?_⟩
  · intro prices n0 n1 r hne hlp
    rw [calcPathPrice, if_neg hne, hlp]
  · intro o acc0 acc1 v onum ra rb L v0 v1 n0 n1 pa pb hk h0 h1 hv hpa hpb hneg
    rw [Order.execute, hk]
    simp only [forwardTransferExecute, h0, h1, if_pos hv, hpa, hpb]
    rw [if_pos hneg]
  · intro o acc0 acc1 v onum ra rb L v0 v1 n0 n1 pa pb hk h0 h1 hv hpa hpb hneg
    rw [Order.execute, hk]
    have hv1 : ¬ (0 ≤ v) := not_le.mpr hv
    simp only [forwardTransferExecute, h0, h1, if_neg hv1, hpa, hpb]
    rw [if_pos hneg]

/-- Counterexample to C4 as stated: `calc_path_price` on a graph holding a
negative rate returns that negative value instead of raising a
"corrupt price graph" error. -/
theorem C4_corrupt_price_counterexample :
    calcPathPrice [(("A", "B"), -2)] "A" "B" = some (-2) ∧ (-2 : ℚ) < 0 := by
  constructor
  · simp [calcPathPrice, lookupP]
  · norm_num

/-- Concrete negative-price transfer for the C4 witness. -/
def negPriceLedger : Ledger :=
  ⟨"EUR", [("a", ⟨10, "EUR"⟩), ("b", ⟨5, "USD"⟩)], [], [(("EUR", "USD"), -2)], [], 0, 0⟩

/-- Witness for C4: the negative-rate edge is returned by path resolution,
and the same negative rate makes a forward transfer raise `BrokerError`. -/
theorem C4_negative_price_handling_witness :
    calcPathPrice [(("A", "B"), -2)] "A" "B" = some (-2) ∧
    sampleFwdOrder.execute negPriceLedger =
      Except.error (PyError.brokerError "Negative prices detected") := by
  refine ⟨C4_negative_price_handling.1 [(("A", "B"), -2)] "A" "B" (-2)
    (by decide) (by simp [lookupP]), ?_⟩
  refine C4_negative_price_handling.2.1 sampleFwdOrder "a" "b" 2 "USD" none none
    negPriceLedger 10 5 "EUR" "USD" (-2) (-2) rfl (by simp [negPriceLedger, lookupA])
    (by simp [negPriceLedger, lookupA]) (by norm_num)
    (by simp [negPriceLedger, getPriceFromDict, lookupP])
    (by simp [negPriceLedger, getPriceFromDict, lookupP]) (by norm_num)

/-- **C10** (amended): `Broker.get_value_account` with a non-empty target
numeraire: (i) for an account whose balance magnitude is strictly below
`EPS_FINANCIAL` it returns exactly 0.0 for every target numeraire, even
when `recent_prices` offers no path; (ii) for a balance at or above the
threshold, it returns None when the required recent-price path
(account numeraire → target) is missing; but (iii) for a balance at or
below the negative threshold with the required path
(target → account numeraire) missing, the code computes
`1.0 / calc_path_price(...)` on `None` and raises `TypeError` instead of
returning None (refuting the original claim, see
`C10_negative_balance_counterexample`). -/
theorem C10_get_value_account (L : Ledger) (acc num0 : String) (a : Amount)
    (hnum : num0 ≠ "") (ha : lookupA L.accounts acc = some a) :
    (|a.value| < EPS_FINANCIAL → getValueAccount L acc num0 = Except.ok (some 0)) ∧
    (EPS_FINANCIAL ≤ a.value → calcPathPrice L.recentPrices a.num num0 = none →
      getValueAccount L acc num0 = Except.ok none) ∧
    (a.value ≤ -EPS_FINANCIAL → calcPathPrice L.recentPrices num0 a.num = none →
      ∃ msg, getValueAccount L acc num0 = Except.error (PyError.typeError msg)) := by
  have heps : (0 : ℚ) < EPS_FINANCIAL := by norm_num [EPS_FINANCIAL]
  refine ⟨?_, ?_, ?_⟩
  · intro hsmall
    rw [getValueAccount]
    simp only [if_neg hnum, ha, if_pos hsmall]
  · intro hbig hpath
    rw [getValueAccount]
    have h1 : ¬ |a.value| < EPS_FINANCIAL := by
      rw [abs_of_nonneg (by linarith)]
      linarith
    have h2 : ¬ a.value < 0 := by linarith
    simp only [if_neg hnum, ha, if_neg h1, if_neg h2, hpath]
  · intro hneg hpath
    rw [getValueAccount]
    have h1 : ¬ |a.value| < EPS_FINANCIAL := by
      rw [abs_of_nonpos (by linarith)]
      linarith
    have h2 : a.value < 0 := by linarith
    simp only [if_neg hnum, ha, if_neg h1, if_pos h2, hpath]
    exact ⟨_, rfl⟩

/-- A ledger holding a short position with no usable recent prices. -/
def shortLedger : Ledger := ⟨"EUR", [("A", ⟨-1, "X"⟩)], [], [], [], 0, 0⟩

/-- Counterexample to C10 as stated: valuing an account with balance
(-1, X) against an empty recent-price graph raises `TypeError`
(`1.0 / None`) instead of returning None. -/
theorem C10_negative_balance_counterexample :
    getValueAccount shortLedger "A" "EUR" =
      Except.error (PyError.typeError "unsupported operand type for /") ∧
    getValueAccount shortLedger "A" "EUR" ≠ Except.ok none := by
  constructor
  · simp [getValueAccount, shortLedger, lookupA, calcPathPrice, findPath, fpScan,
      lookupP, EPS_FINANCIAL]
    norm_num
  · intro hc
    rw [show getValueAccount shortLedger "A" "EUR" =
        Except.error (PyError.typeError "unsupported operand type for /") from by
      simp [getValueAccount, shortLedger, lookupA, calcPathPrice, findPath, fpScan,
        lookupP, EPS_FINANCIAL]
      norm_num] at hc
    cases hc

/-- Witness for C10: a vanishing balance values to 0 with no prices at all,
a positive balance with no path values to None, and the negative-balance
TypeError case at a concrete input. -/
theorem C10_get_value_account_witness :
    getValueAccount (⟨"EUR", [("Z", ⟨1 / 400000000, "X"⟩)], [], [], [], 0, 0⟩ : Ledger)
        "Z" "EUR" = Except.ok (some 0) ∧
    getValueAccount (⟨"EUR", [("P", ⟨3, "X"⟩)], [], [], [], 0, 0⟩ : Ledger)
        "P" "EUR" = Except.ok none ∧
    (∃ msg, getValueAccount shortLedger "A" "EUR" =
      Except.error (PyError.typeError msg)) := by
  refine ⟨?_, ?_, ?_⟩
  · exact (C10_get_value_account _ "Z" "EUR" ⟨1 / 400000000, "X"⟩ (by decide)
      (by simp [lookupA])).1 (by
        rw [show (⟨1 / 400000000, "X"⟩ : Amount).value = 1 / 400000000 from rfl,
          abs_of_pos (by norm_num : (0 : ℚ) < 1 / 400000000)]
        norm_num [EPS_FINANCIAL])
  · exact (C10_get_value_account _ "P" "EUR" ⟨3, "X"⟩ (by decide)
      (by simp [lookupA])).2.1 (by norm_num [EPS_FINANCIAL])
      (by simp [calcPathPrice, findPath, fpScan, lookupP])
  · exact (C10_get_value_account shortLedger "A" "EUR" ⟨-1, "X"⟩ (by decide)
      (by simp [shortLedger, lookupA])).2.2 (by norm_num [EPS_FINANCIAL])
      (by simp [shortLedger, calcPathPrice, findPath, fpScan, lookupP])

/-- A trimmed list never exceeds the capacity. -/
theorem bqTrim_length_le (c : ℕ) (l : List Order) : (bqTrim (some c) l).length ≤ c := by
  simp only [bqTrim, List.length_drop]
  omega

/-- Trimming keeps a suffix: the newest entries are retained. -/
theorem bqTrim_suffix (cap : Option ℕ) (l : List Order) : bqTrim cap l <:+ l := by
  cases cap with
  | none => exact List.suffix_rfl
  | some c => exact List.drop_suffix _ _

/-- Trimming, appending and trimming again equals trimming the whole. -/
theorem bqTrim_append (cap : Option ℕ) (a b : List Order) :
    bqTrim cap (bqTrim cap a ++ b) = bqTrim cap (a ++ b) := by
  cases cap with
  | none => rfl
  | some c =>
    simp only [bqTrim]
    rw [show a.drop (a.length - c) ++ b = (a ++ b).drop (a.length - c) from
      (List.drop_append_of_le_length (by omega)).symm]
    rw [List.drop_drop]
    congr 1
    simp only [List.length_drop, List.length_append]
    omega

/-- `deque.extend` on a trimmed queue keeps exactly the newest `cap`
entries of the combined contents. -/
theorem extendL_trim (cap : Option ℕ) (os : List Order) :
    ∀ xs, BQueue.extendL ⟨cap, bqTrim cap xs⟩ os = ⟨cap, bqTrim cap (xs ++ os)⟩ := by
  induction os with
  | nil =>
    intro xs
    simp [BQueue.extendL]
  | cons o os ih =>
    intro xs
    show BQueue.extendL (BQueue.push ⟨cap, bqTrim cap xs⟩ o) os = _
    rw [BQueue.push]
    show BQueue.extendL ⟨cap, bqTrim cap (bqTrim cap xs ++ [o])⟩ os = _
    rw [bqTrim_append]
    rw [ih (xs ++ [o])]
    simp

set_option maxRecDepth 40000

/-- **C7**: queue boundedness.  (i) Extending a bounded queue never fails
(the operation is total) and yields exactly the newest entries of the
combined contents: the result is a suffix of the old-contents-plus-new-
entries list and its length never exceeds the capacity, so overflowing
silently drops the oldest entries.  (ii) After `fill_order` (with or
without filters) the active queue length never exceeds the configured
`MAX_NUM_ACTIVE_ORDERS`, and the queue holds a suffix of the previous
contents followed by the newly produced orders (oldest dropped on
overflow). -/
theorem C7_queue_boundedness :
    (∀ (c : ℕ) (xs os : List Order),
      BQueue.extendL ⟨some c, bqTrim (some c) xs⟩ os =
        ⟨some c, bqTrim (some c) (xs ++ os)⟩ ∧
      (bqTrim (some c) (xs ++ os)).length ≤ c ∧
      bqTrim (some c) (xs ++ os) <:+ xs ++ os) ∧
    (∀ (sim : SimState) (o : Order) (s : BrokerState) (c : ℕ),
      s.activeOrders.cap = some c → c ≤ MAX_NUM_ACTIVE_ORDERS →
      (fillOrder sim o s).2.activeOrders.items.length ≤ MAX_NUM_ACTIVE_ORDERS ∧
      ∃ newOrders, (fillOrder sim o s).2.activeOrders.items <:+
        s.activeOrders.items ++ newOrders) := by
  constructor
  · intro c xs os
    exact ⟨extendL_trim (some c) os xs, bqTrim_length_le c _, bqTrim_suffix _ _⟩
  · intro sim o s c hcap hcle
    rw [fillOrder]
    cases hf : sim.filters with
    | nil =>
      dsimp only
      rw [BQueue.push]
      constructor
      · calc (bqTrim s.activeOrders.cap
              (s.activeOrders.items ++ [{ o with gid := sim.groupId + 1 }])).length
            ≤ c := by rw [hcap]; exact bqTrim_length_le c _
          _ ≤ MAX_NUM_ACTIVE_ORDERS := hcle
      · exact ⟨[{ o with gid := sim.groupId + 1 }], bqTrim_suffix _ _⟩
    | cons f fs =>
      dsimp only
      have he := extendL_trim (some 1000)
        (runStages s.activeOrders.items s (f :: fs) [{ o with gid := sim.groupId + 1 }])
        s.activeOrders.items
      rw [he]
      dsimp only
      refine ⟨?_, ?_⟩
      · exact le_trans (bqTrim_length_le 1000 _) (by norm_num [MAX_NUM_ACTIVE_ORDERS])
      · exact ⟨runStages s.activeOrders.items s (f :: fs) [{ o with gid := sim.groupId + 1 }],
          bqTrim_suffix _ _⟩

/-- Witness for C7: a two-element queue of capacity two drops its oldest
entry, and a concrete `fill_order` without filters respects the bound. -/
theorem C7_queue_boundedness_witness :
    BQueue.extendL ⟨some 2, bqTrim (some 2) [termOrder, termOrder]⟩ [termOrder] =
      ⟨some 2, bqTrim (some 2) ([termOrder, termOrder] ++ [termOrder])⟩ ∧
    (bqTrim (some 2) ([termOrder, termOrder] ++ [termOrder])).length ≤ 2 ∧
    (fillOrder ⟨[], "EUR", [], [], 0, 0⟩ termOrder
        ⟨sampleLedger, ⟨some MAX_NUM_ACTIVE_ORDERS, []⟩, ⟨some MAX_NUM_EXECUTED_ORDERS, []⟩,
          ⟨some MAX_NUM_REJECTED_ORDERS, []⟩⟩).2.activeOrders.items.length ≤
      MAX_NUM_ACTIVE_ORDERS := by
  have h1 := C7_queue_boundedness.1 2 [termOrder, termOrder] [termOrder]
  have h2 := C7_queue_boundedness.2 ⟨[], "EUR", [], [], 0, 0⟩ termOrder
    ⟨sampleLedger, ⟨some MAX_NUM_ACTIVE_ORDERS, []⟩, ⟨some MAX_NUM_EXECUTED_ORDERS, []⟩,
      ⟨some MAX_NUM_REJECTED_ORDERS, []⟩⟩ MAX_NUM_ACTIVE_ORDERS rfl (le_refl _)
  exact ⟨h1.1, h1.2.1, h2.1⟩

/-- Membership in an age-ordered insertion. -/
theorem mem_insertByAge (a x : Order) (l : List Order) :
    x ∈ insertByAge a l ↔ x = a ∨ x ∈ l := by
  induction l with
  | nil => simp [insertByAge]
  | cons b t ih =>
    rw [insertByAge]
    split
    · simp [or_comm, or_assoc, or_left_comm]
    · simp only [List.mem_cons, ih]
      tauto

/-- Age-ordered insertion preserves sortedness by age. -/
theorem pairwise_insertByAge (a : Order) (l : List Order)
    (h : List.Pairwise (fun o1 o2 => o1.age ≤ o2.age) l) :
    List.Pairwise (fun o1 o2 => o1.age ≤ o2.age) (insertByAge a l) := by
  induction l with
  | nil => simp [insertByAge]
  | cons b t ih =>
    rw [List.pairwise_cons] at h
    rw [insertByAge]
    split
    next hab =>
      rw [List.pairwise_cons]
      refine ⟨?_, List.Pairwise.cons h.1 h.2⟩
      intro x hx
      rcases List.mem_cons.mp hx with hx | hx
      · exact hx ▸ hab
      · exact le_trans hab (h.1 x hx)
    next hab =>
      rw [List.pairwise_cons]
      refine ⟨?_, ih h.2⟩
      intro x hx
      rcases (mem_insertByAge a x t).mp hx with hx | hx
      · exact hx ▸ le_of_not_le hab
      · exact h.1 x hx

/-- `sortByAge` sorts by ascending age. -/
theorem sortByAge_pairwise (l : List Order) :
    List.Pairwise (fun o1 o2 => o1.age ≤ o2.age) (sortByAge l) := by
  induction l with
  | nil => exact List.Pairwise.nil
  | cons a t ih => exact pairwise_insertByAge a (sortByAge t) ih

/-- Age-ordered insertion is a permutation. -/
theorem insertByAge_perm (a : Order) (l : List Order) :
    List.Perm (insertByAge a l) (a :: l) := by
  induction l with
  | nil => rfl
  | cons b t ih =>
    rw [insertByAge]
    split
    · rfl
    · exact (List.Perm.cons b ih).trans (List.Perm.swap a b t)

/-- `sortByAge` permutes its input. -/
theorem sortByAge_perm (l : List Order) : List.Perm (sortByAge l) l := by
  induction l with
  | nil => rfl
  | cons a t ih => exact (insertByAge_perm a (sortByAge t)).trans (List.Perm.cons a ih)

/-- The equal-age class of an insertion: the inserted element goes first
in its own age class (stability of the insertion step). -/
theorem filter_insertByAge (a : Order) (l : List Order) (n : ℕ) :
    (insertByAge a l).filter (fun o => o.age = n) =
      if a.age = n then a :: l.filter (fun o => o.age = n)
      else l.filter (fun o => o.age = n) := by
  induction l with
  | nil => by_cases han : a.age = n <;> simp [insertByAge, han]
  | cons b t ih =>
    rw [insertByAge]
    split
    next hab =>
      by_cases han : a.age = n
      · simp [List.filter, han]
      · simp [List.filter, han]
    next hab =>
      have hlt : b.age < a.age := Nat.lt_of_not_le (fun hc => hab hc)
      by_cases han : a.age = n
      · have hbn : ¬ b.age = n := by omega
        simp [List.filter, hbn, ih, han]
      · by_cases hbn : b.age = n
        · simp [List.filter, hbn, ih, han]
        · simp [List.filter, hbn, ih, han]

/-- Stability of `sortByAge`: each equal-age class keeps its original
relative order. -/
theorem sortByAge_stable (l : List Order) (n : ℕ) :
    (sortByAge l).filter (fun o => o.age = n) = l.filter (fun o => o.age = n) := by
  induction l with
  | nil => rfl
  | cons a t ih =>
    rw [sortByAge, filter_insertByAge]
    by_cases han : a.age = n
    · simp [List.filter, han, ih]
    · simp [List.filter, han, ih]

/-- The orders an execution round reports as postponed, with ages
incremented. -/
def agedActives (outs : List (Order × OrderStatus)) : List Order :=
  outs.filterMap fun x =>
    if x.2 = OrderStatus.active then some { x.1 with age := x.1.age + 1 } else none

/-- The orders an execution round reports as executed. -/
def executedOf (outs : List (Order × OrderStatus)) : List Order :=
  outs.filterMap fun x => if x.2 = OrderStatus.executed then some x.1 else none

/-- The orders an execution round reports as rejected. -/
def rejectedOf (outs : List (Order × OrderStatus)) : List Order :=
  outs.filterMap fun x => if x.2 = OrderStatus.rejected then some x.1 else none

/-- A successful execution round reports one outcome per order. -/
theorem runOrders_length (orders : List Order) :
    ∀ (L : Ledger) outs L1, runOrders orders L = Except.ok (outs, L1) →
      outs.length = orders.length := by
  induction orders with
  | nil =>
    intro L outs L1 h
    rw [runOrders] at h
    simp only [Except.ok.injEq, Prod.mk.injEq] at h
    rw [← h.1]
    rfl
  | cons o rest ih =>
    intro L outs L1 h
    rw [runOrders] at h
    rcases hex : o.execute L with e | ⟨st1, o1, L2⟩ <;> rw [hex] at h
    · exact absurd h (by simp [Bind.bind, Except.bind])
    · simp only [Bind.bind, Except.bind] at h
      rcases hro : runOrders rest L2 with e | ⟨outs2, L3⟩ <;> rw [hro] at h
      · exact absurd h (by simp [Except.bind])
      · simp only [Except.bind, Except.ok.injEq, Prod.mk.injEq] at h
        rw [← h.1]
        simp [ih L2 outs2 L3 hro]

/-- The `_process_orders` loop, characterised against the queue-free
outcome list of `runOrders`. -/
theorem processLoop_spec (orders : List Order) :
    ∀ (s : BrokerState) (postponed : List Order) outs L1,
    runOrders orders s.ledger = Except.ok (outs, L1) →
    processLoop orders s postponed = Except.ok
      { ledger := L1,
        activeOrders := BQueue.extendL ⟨s.activeOrders.cap, []⟩ (postponed ++ agedActives outs),
        executedOrders := BQueue.extendL s.executedOrders (executedOf outs),
        rejectedOrders := BQueue.extendL s.rejectedOrders (rejectedOf outs) } := by
  induction orders with
  | nil =>
    intro s postponed outs L1 h
    rw [runOrders] at h
    simp only [Except.ok.injEq, Prod.mk.injEq] at h
    obtain ⟨houts, hL⟩ := h
    rw [processLoop, ← houts, ← hL]
    simp [agedActives, executedOf, rejectedOf, BQueue.extendL]
  | cons o rest ih =>
    intro s postponed outs L1 h
    rw [runOrders] at h
    rcases hex : o.execute s.ledger with e | ⟨st1, o1, L2⟩ <;> rw [hex] at h
    · exact absurd h (by simp [Bind.bind, Except.bind])
    · simp only [Bind.bind, Except.bind] at h
      rcases hro : runOrders rest L2 with e | ⟨outs2, L3⟩ <;> rw [hro] at h
      · exact absurd h (by simp [Except.bind])
      · simp only [Except.bind, Except.ok.injEq, Prod.mk.injEq] at h
        obtain ⟨houts, hL⟩ := h
        rw [processLoop, hex]
        cases st1 with
        | executed =>
          have hihx := ih { s with ledger := L2, executedOrders := s.executedOrders.push o1 } postponed outs2 L3 hro
          simp only [Bind.bind, Except.bind]
          rw [hihx, ← houts, ← hL]
          simp only [agedActives, executedOf, rejectedOf, List.filterMap_cons]
          simp [BQueue.extendL]
        | active =>
          have hihx := ih { s with ledger := L2 } (postponed ++ [{ o1 with age := o1.age + 1 }]) outs2 L3 hro
          simp only [Bind.bind, Except.bind]
          rw [hihx, ← houts, ← hL]
          simp only [agedActives, executedOf, rejectedOf, List.filterMap_cons]
          simp
        | rejected =>
          have hihx := ih { s with ledger := L2, rejectedOrders := s.rejectedOrders.push o1 } postponed outs2 L3 hro
          simp only [Bind.bind, Except.bind]
          rw [hihx, ← houts, ← hL]
          simp only [agedActives, executedOf, rejectedOf, List.filterMap_cons]
          simp [BQueue.extendL]

/-- Trimming does nothing while the queue is within capacity. -/
theorem bqTrim_of_le (c : ℕ) (l : List Order) (h : l.length ≤ c) :
    bqTrim (some c) l = l := by
  simp only [bqTrim]
  rw [show l.length - c = 0 from by omega]
  exact List.drop_zero l

/-- **C5**: one tick of order processing.  (i) The processing order
`sortByAge` is a stable ascending-age sort of the active queue: ages are
monotone, the result is a permutation, and each equal-age class keeps its
original relative order.  (ii) Given the sequential execution outcomes of
the sorted orders (`runOrders`), `_process_orders` appends exactly the
`Executed` outcomes to the executed queue and the `Rejected` outcomes to
the rejected queue, in processing order, and replaces the active queue with
exactly the `Active` (postponed) outcomes in processing order, each with
its age incremented by 1 (trimmed only by queue capacity, which is no
restriction while the queue is within its capacity). -/
theorem C5_process_orders (s : BrokerState) :
    (List.Pairwise (fun o1 o2 => o1.age ≤ o2.age) (sortByAge s.activeOrders.items) ∧
     List.Perm (sortByAge s.activeOrders.items) s.activeOrders.items ∧
     (∀ n, (sortByAge s.activeOrders.items).filter (fun o => o.age = n) =
       s.activeOrders.items.filter (fun o => o.age = n))) ∧
    (∀ outs L1, runOrders (sortByAge s.activeOrders.items) s.ledger = Except.ok (outs, L1) →
      processOrders s = Except.ok
        { ledger := L1,
          activeOrders := ⟨s.activeOrders.cap, bqTrim s.activeOrders.cap (agedActives outs)⟩,
          executedOrders := BQueue.extendL s.executedOrders (executedOf outs),
          rejectedOrders := BQueue.extendL s.rejectedOrders (rejectedOf outs) } ∧
      (∀ c, s.activeOrders.cap = some c → s.activeOrders.items.length ≤ c →
        bqTrim s.activeOrders.cap (agedActives outs) = agedActives outs)) := by
  refine ⟨⟨sortByAge_pairwise _, sortByAge_perm _, fun n => sortByAge_stable _ n⟩, ?_⟩
  intro outs L1 hro
  constructor
  · rw [processOrders, processLoop_spec _ s [] outs L1 hro]
    have hempty : ([] : List Order) = bqTrim s.activeOrders.cap [] := by
      cases s.activeOrders.cap <;> simp [bqTrim]
    rw [show (⟨s.activeOrders.cap, ([] : List Order)⟩ : BQueue) =
        ⟨s.activeOrders.cap, bqTrim s.activeOrders.cap []⟩ from by rw [← hempty]]
    rw [extendL_trim]
    simp
  · intro c hc hlen
    rw [hc]
    refine bqTrim_of_le c _ ?_
    calc (agedActives outs).length ≤ outs.length := List.length_filterMap_le _ _
      _ = (sortByAge s.activeOrders.items).length := runOrders_length _ _ _ _ hro
      _ = s.activeOrders.items.length := (sortByAge_perm _).length_eq
      _ ≤ c := hlen

/-- The postponed transfer order of the C5 witness (age 2). -/
def procOrderT : Order :=
  ⟨2, OrderStatus.active, 0, "", 0, OrderKind.forwardTransfer "a" "b" ⟨2, "USD"⟩ none none⟩

/-- The younger bookkeeping order of the C5 witness (age 1). -/
def procOrderV : Order := ⟨1, OrderStatus.active, 0, "", 0, OrderKind.addToVariable "x" 3⟩

/-- A broker state with two active orders of different ages and no current
prices (so that the transfer is postponed). -/
def procState : BrokerState :=
  ⟨⟨"EUR", [("a", ⟨10, "EUR"⟩), ("b", ⟨5, "USD"⟩)], [], [], [], 0, 0⟩,
   ⟨some MAX_NUM_ACTIVE_ORDERS, [procOrderT, procOrderV]⟩,
   ⟨some MAX_NUM_EXECUTED_ORDERS, []⟩, ⟨some MAX_NUM_REJECTED_ORDERS, []⟩⟩

/-- The execution outcomes of the C5 witness state: the age-1 order runs
first and executes, the age-2 transfer is postponed. -/
def procOuts : List (Order × OrderStatus) :=
  [(⟨1, OrderStatus.executed, 0, "", 0, OrderKind.addToVariable "x" 3⟩, OrderStatus.executed),
   (procOrderT, OrderStatus.active)]

/-- The ledger after the C5 witness tick. -/
def procLedger1 : Ledger :=
  ⟨"EUR", [("a", ⟨10, "EUR"⟩), ("b", ⟨5, "USD"⟩)], [("x", 3)], [], [], 0, 0⟩

/-- Witness for C5 at a concrete two-order state. -/
theorem C5_process_orders_witness :
    runOrders (sortByAge procState.activeOrders.items) procState.ledger =
      Except.ok (procOuts, procLedger1) ∧
    processOrders procState = Except.ok
      { ledger := procLedger1,
        activeOrders := ⟨some MAX_NUM_ACTIVE_ORDERS,
          bqTrim (some MAX_NUM_ACTIVE_ORDERS) (agedActives procOuts)⟩,
        executedOrders := BQueue.extendL ⟨some MAX_NUM_EXECUTED_ORDERS, []⟩ (executedOf procOuts),
        rejectedOrders := BQueue.extendL ⟨some MAX_NUM_REJECTED_ORDERS, []⟩ (rejectedOf procOuts) } ∧
    (sortByAge procState.activeOrders.items).filter (fun o => o.age = 1) =
      procState.activeOrders.items.filter (fun o => o.age = 1) := by
  have hro : runOrders (sortByAge procState.activeOrders.items) procState.ledger =
      Except.ok (procOuts, procLedger1) := by
    simp [runOrders, sortByAge, insertByAge, procState, procOrderT, procOrderV,
      Order.execute, forwardTransferExecute, lookupA, setA, getPriceFromDict, lookupP,
      Order.setStatus, Bind.bind, Except.bind, procOuts, procLedger1]
  have h := (C5_process_orders procState).2 procOuts procLedger1 hro
  exact ⟨hro, h.1, (C5_process_orders procState).1.2.2 1⟩

/-- No order execution changes the simulated clock or the time index. -/
theorem execute_preserves_clock (o : Order) (L : Ledger) :
    ∀ st o1 L1, o.execute L = Except.ok (st, o1, L1) →
      L1.now = L.now ∧ L1.timeIndex = L.timeIndex := by
  intro st o1 L1 hok
  rw [Order.execute] at hok
  rcases hkind : o.kind with
      ⟨name, am⟩ | ⟨name⟩ | ⟨a0, a1, pers⟩ | ⟨a0, a1, am, ra, rb⟩ | ⟨a0, a1, am, ra, rb⟩ |
      ⟨name, value⟩ | ⟨name, value⟩ |
      ⟨name, rate, lb, ub, ast, aet, sv, sn, svt, keyv⟩ <;>
    rw [hkind] at hok <;> dsimp only at hok
  · -- createAccount
    split at hok <;>
    · rcases hss : Order.setStatus o _ L.now _ with e | ⟨st2, o2⟩ <;> rw [hss] at hok
      · exact absurd hok (by simp [Bind.bind, Except.bind])
      · simp only [Bind.bind, Except.bind, Except.ok.injEq, Prod.mk.injEq] at hok
        rw [← hok.2.2]
        exact ⟨rfl, rfl⟩
  · -- deleteAccount
    split at hok
    · rcases hss : Order.setStatus o _ L.now _ with e | ⟨st2, o2⟩ <;> rw [hss] at hok
      · exact absurd hok (by simp [Bind.bind, Except.bind])
      · simp only [Bind.bind, Except.bind, Except.ok.injEq, Prod.mk.injEq] at hok
        rw [← hok.2.2]
        exact ⟨rfl, rfl⟩
    · split at hok <;>
      · rcases hss : Order.setStatus o _ L.now _ with e | ⟨st2, o2⟩ <;> rw [hss] at hok
        · exact absurd hok (by simp [Bind.bind, Except.bind])
        · simp only [Bind.bind, Except.bind, Except.ok.injEq, Prod.mk.injEq] at hok
          rw [← hok.2.2]
          exact ⟨rfl, rfl⟩
  · -- transferAll
    split at hok
    case _ ax amy h1 h2 =>
      split at hok
      · split at hok
        · simp only [Except.ok.injEq, Prod.mk.injEq] at hok
          rw [← hok.2.2]
          exact ⟨rfl, rfl⟩
        · rcases hss : Order.setStatus o _ L.now _ with e | ⟨st2, o2⟩ <;> rw [hss] at hok
          · exact absurd hok (by simp [Bind.bind, Except.bind])
          · simp only [Bind.bind, Except.bind, Except.ok.injEq, Prod.mk.injEq] at hok
            rw [← hok.2.2]
            exact ⟨rfl, rfl⟩
      · rcases hmk : mkForwardTransferOrder a0 a1 ax o.gid with e | spawned <;> rw [hmk] at hok
        · exact absurd hok (by simp [Bind.bind, Except.bind])
        · simp only [Bind.bind, Except.bind] at hok
          rcases hfx : forwardTransferExecute spawned a0 a1 ax L with e | ⟨st3, o3, L3⟩ <;>
            rw [hfx] at hok
          · exact absurd hok (by simp [Except.bind])
          · have hL3 : L3.now = L.now ∧ L3.timeIndex = L.timeIndex := by
              rcases fwdExec_inv _ _ _ _ _ _ _ _ hfx with
                ⟨_, hL, _⟩ | ⟨_, hL, _⟩ | ⟨_, _, _, b0, b1, v0, v1, hb0, hb1, hL⟩ <;>
                rw [hL] <;> exact ⟨rfl, rfl⟩
            simp only [Except.bind] at hok
            split at hok
            · simp only [Except.ok.injEq, Prod.mk.injEq] at hok
              rw [← hok.2.2]
              exact hL3
            · rcases hss : Order.setStatus o _ L3.now _ with e | ⟨st2, o2⟩ <;> rw [hss] at hok
              · exact absurd hok (by simp [Except.bind])
              · simp only [Except.bind, Except.ok.injEq, Prod.mk.injEq] at hok
                rw [← hok.2.2]
                exact hL3
    case _ =>
      split at hok
      · simp only [Except.ok.injEq, Prod.mk.injEq] at hok
        rw [← hok.2.2]
        exact ⟨rfl, rfl⟩
      · rcases hss : Order.setStatus o _ L.now _ with e | ⟨st2, o2⟩ <;> rw [hss] at hok
        · exact absurd hok (by simp [Bind.bind, Except.bind])
        · simp only [Bind.bind, Except.bind, Except.ok.injEq, Prod.mk.injEq] at hok
          rw [← hok.2.2]
          exact ⟨rfl, rfl⟩
  · -- forwardTransfer
    rcases fwdExec_inv _ _ _ _ _ _ _ _ hok with
      ⟨_, hL, _⟩ | ⟨_, hL, _⟩ | ⟨_, _, _, b0, b1, v0, v1, hb0, hb1, hL⟩ <;>
      rw [hL] <;> exact ⟨rfl, rfl⟩
  · -- backwardTransfer
    rcases bwdExec_inv _ _ _ _ _ _ _ _ hok with
      ⟨_, hL, _⟩ | ⟨_, hL, _⟩ | ⟨_, _, _, b0, b1, v0, v1, hb0, hb1, hL⟩ <;>
      rw [hL] <;> exact ⟨rfl, rfl⟩
  · -- addToVariable
    rcases hss : Order.setStatus o _ L.now _ with e | ⟨st2, o2⟩ <;> rw [hss] at hok
    · exact absurd hok (by simp [Bind.bind, Except.bind])
    · simp only [Bind.bind, Except.bind, Except.ok.injEq, Prod.mk.injEq] at hok
      rw [← hok.2.2]
      exact ⟨rfl, rfl⟩
  · -- addToAccountBalance
    split at hok <;>
    · rcases hss : Order.setStatus o _ L.now _ with e | ⟨st2, o2⟩ <;> rw [hss] at hok
      · exact absurd hok (by simp [Bind.bind, Except.bind])
      · simp only [Bind.bind, Except.bind, Except.ok.injEq, Prod.mk.injEq] at hok
        rw [← hok.2.2]
        exact ⟨rfl, rfl⟩
  · -- interest
    split at hok
    · simp only [Except.ok.injEq, Prod.mk.injEq] at hok
      rw [← hok.2.2]
      exact ⟨rfl, rfl⟩
    case _ a heqa =>
      simp only [Bind.bind, Except.bind] at hok
      split at hok
      · split at hok
        · exact absurd hok (by simp)
        next x heqss =>
          simp only [Except.ok.injEq, Prod.mk.injEq] at hok
          rw [← hok.2.2]
          exact ⟨rfl, rfl⟩
      next sv heqsv =>
        split at hok
        · exact absurd hok (by simp)
        · split at hok
          · exact absurd hok (by simp)
          next x heqss =>
            simp only [Except.ok.injEq, Prod.mk.injEq] at hok
            rw [← hok.2.2]
            exact ⟨rfl, rfl⟩

/-- Order processing preserves the simulated clock and time index. -/
theorem processLoop_preserves_clock (orders : List Order) :
    ∀ (s : BrokerState) (postponed : List Order) s1,
    processLoop orders s postponed = Except.ok s1 →
      s1.ledger.now = s.ledger.now ∧ s1.ledger.timeIndex = s.ledger.timeIndex := by
  induction orders with
  | nil =>
    intro s postponed s1 h
    rw [processLoop] at h
    simp only [Except.ok.injEq] at h
    rw [← h]
    exact ⟨rfl, rfl⟩
  | cons o rest ih =>
    intro s postponed s1 h
    rw [processLoop] at h
    rcases hex : o.execute s.ledger with e | ⟨st1, o1, L2⟩ <;> rw [hex] at h
    · exact absurd h (by simp [Bind.bind, Except.bind])
    · simp only [Bind.bind, Except.bind] at h
      have hcl := execute_preserves_clock o s.ledger st1 o1 L2 hex
      cases st1 with
      | executed =>
        have := ih { s with ledger := L2, executedOrders := s.executedOrders.push o1 } postponed s1 h
        exact ⟨this.1.trans hcl.1, this.2.trans hcl.2⟩
      | active =>
        have := ih { s with ledger := L2 } (postponed ++ [{ o1 with age := o1.age + 1 }]) s1 h
        exact ⟨this.1.trans hcl.1, this.2.trans hcl.2⟩
      | rejected =>
        have := ih { s with ledger := L2, rejectedOrders := s.rejectedOrders.push o1 } postponed s1 h
        exact ⟨this.1.trans hcl.1, this.2.trans hcl.2⟩

/-- **C6**: for a `BrokerSimulator` over a non-empty time grid: the `next`
call that advances past the last grid timestamp returns the `None`
sentinel without error and touches nothing; every call made with the grid
already exhausted (time index at or beyond the grid length — in particular
every call after the sentinel) raises the fatal "end of backtest"
`BrokerError`; and whenever `next` returns a timestamp it is exactly the
grid point the state was advanced to, with the broker clock and time index
set to it. -/
theorem C6_simulator_next (sim : SimState) (s : BrokerState)
    (_hne : sim.timeGrid ≠ []) :
    (sim.timeIndex + 1 = sim.timeGrid.length →
      simNext sim s = Except.ok (none, { sim with timeIndex := sim.timeIndex + 1 }, s)) ∧
    (∀ (j : ℕ) (s2 : BrokerState), sim.timeGrid.length ≤ j →
      ∃ msg, simNext { sim with timeIndex := j } s2 =
        Except.error (PyError.brokerError msg)) ∧
    (∀ t sim1 s1, simNext sim s = Except.ok (some t, sim1, s1) →
      t = sim.timeGrid.getD (sim.timeIndex + 1) 0 ∧ s1.ledger.now = t ∧
      s1.ledger.timeIndex = sim.timeIndex + 1 ∧ sim1.timeIndex = sim.timeIndex + 1) := by
  refine ⟨?_, ?_, ?_⟩
  · intro hlast
    rw [simNext]
    dsimp only
    rw [if_neg (by omega), if_pos hlast.symm]
  · intro j s2 hj
    refine ⟨"Backtest end of time reached", ?_⟩
    rw [simNext]
    dsimp only
    rw [if_pos (by omega)]
  · intro t sim1 s1 hok
    rw [simNext] at hok
    dsimp only at hok
    split at hok
    · exact absurd hok (by simp)
    · split at hok
      · exact absurd hok (by simp)
      next hlt2 =>
        split at hok
        · exact absurd hok (by simp)
        next s1x hpo =>
          simp only [Except.ok.injEq, Prod.mk.injEq, Option.some.injEq] at hok
          obtain ⟨ht, hsim, hs1⟩ := hok
          have hclock := processLoop_preserves_clock _ _ _ _ hpo
          have hnow : s1x.ledger.now = sim.timeGrid.getD (sim.timeIndex + 1) 0 := by
            rw [hclock.1]
            simp [updateCurrentPrices]
          have hti : s1x.ledger.timeIndex = sim.timeIndex + 1 := by
            rw [hclock.2]
            simp [updateCurrentPrices]
          refine ⟨by rw [← ht, hnow], ?_, ?_, ?_⟩
          · rw [← hs1, ← ht, hnow]
          · rw [← hs1, hti]
          · rw [← hsim]
  
/-- The two-point simulator of the C6 witness. -/
def simW : SimState := ⟨[], "EUR", [(("EUR", "USD"), [(200, 2)])], [100, 200], 0, 0⟩

/-- The empty-queue broker state of the C6 witness. -/
def stateW : BrokerState :=
  ⟨⟨"EUR", [], [], [], [], 0, 0⟩, ⟨some MAX_NUM_ACTIVE_ORDERS, []⟩,
   ⟨some MAX_NUM_EXECUTED_ORDERS, []⟩, ⟨some MAX_NUM_REJECTED_ORDERS, []⟩⟩

/-- The C6 witness simulator advanced to grid index 1. -/
def simW1 : SimState := ⟨[], "EUR", [(("EUR", "USD"), [(200, 2)])], [100, 200], 1, 0⟩

/-- The C6 witness broker state after advancing to time 200. -/
def stateW1 : BrokerState :=
  ⟨⟨"EUR", [], [], [(("EUR", "USD"), 2)], [], 200, 1⟩, ⟨some MAX_NUM_ACTIVE_ORDERS, []⟩,
   ⟨some MAX_NUM_EXECUTED_ORDERS, []⟩, ⟨some MAX_NUM_REJECTED_ORDERS, []⟩⟩

/-- Witness for C6: advancing to the second of two grid points returns that
timestamp with the clock set to it; from the grid end the next call returns
the sentinel; past the end it raises. -/
theorem C6_simulator_next_witness :
    (simNext simW stateW = Except.ok (some 200, simW1, stateW1) ∧
      (200 : Time) = simW.timeGrid.getD 1 0 ∧ stateW1.ledger.now = 200 ∧
      stateW1.ledger.timeIndex = 1 ∧ simW1.timeIndex = 1) ∧
    simNext simW1 stateW =
      Except.ok (none, (⟨[], "EUR", [(("EUR", "USD"), [(200, 2)])], [100, 200], 2, 0⟩ : SimState),
        stateW) ∧
    (∃ msg, simNext (⟨[], "EUR", [(("EUR", "USD"), [(200, 2)])], [100, 200], 2, 0⟩ : SimState)
        stateW = Except.error (PyError.brokerError msg)) := by
  have hok : simNext simW stateW = Except.ok (some 200, simW1, stateW1) := by
    simp [simNext, simW, stateW, simW1, stateW1, updateCurrentPrices, lookupT,
      processOrders, processLoop, sortByAge, BQueue.extendL]
  refine ⟨?_, ?_, ?_⟩
  · obtain ⟨ht, hnow, hti, hsim⟩ :=
      (C6_simulator_next simW stateW (by simp [simW])).2.2 200 simW1 stateW1 hok
    exact ⟨hok, ht, hnow, hti, hsim⟩
  · exact (C6_simulator_next simW1 stateW (by simp [simW1])).1 rfl
  · exact (C6_simulator_next simW1 stateW (by simp [simW1])).2.1 2 stateW (by simp [simW1])
